import Mathlib

/-!
Verification of the core of the TP1_ALG2 search engine
(src/compact_trie.py, src/RI.py, src/indexer.py).

Shallow embedding conventions:
* Python strings are embedded as `List Char`; Python `int` as `Nat` (all the
  integers handled by this code are non-negative document ids, frequencies and
  counts) and Python `float` as `Rat` (exact arithmetic).
* Python dictionaries keyed by characters (`TrieNode.children`) are embedded as
  association lists; assignment `d[k] = v` replaces the value in place when the
  key is present (keeping its position) and appends otherwise, which is exactly
  the observable behaviour of a `dict` under lookup and ordered iteration.
* Mutating methods are embedded as functions returning the updated value.
-/

/-- A Python string, embedded as its list of characters. -/
abbrev Word := List Char

/-- One entry of an inverted index: a `(doc_id, frequency)` pair
(src/compact_trie.py line 19). -/
abbrev Posting := Nat × Nat

/-- A node of the compact trie (class `TrieNode`, src/compact_trie.py lines 1-20):
a label, a terminal flag, the posting list (inverted index) and the children
dictionary keyed by the first character of each child's label. -/
inductive TrieNode : Type where
  | mk (label : Word) (is_terminal : Bool) (inverted_index : List Posting)
      (children : List (Char × TrieNode)) : TrieNode

/-- The `label` field of a `TrieNode`. -/
def TrieNode.label : TrieNode → Word
  | .mk l _ _ _ => l

/-- The `is_terminal` field of a `TrieNode`. -/
def TrieNode.is_terminal : TrieNode → Bool
  | .mk _ b _ _ => b

/-- The `inverted_index` field of a `TrieNode`. -/
def TrieNode.inverted_index : TrieNode → List Posting
  | .mk _ _ i _ => i

/-- The `children` field of a `TrieNode`. -/
def TrieNode.children : TrieNode → List (Char × TrieNode)
  | .mk _ _ _ c => c

@[simp] theorem TrieNode.label_mk (l b i c) : (TrieNode.mk l b i c).label = l := rfl

@[simp] theorem TrieNode.is_terminal_mk (l b i c) : (TrieNode.mk l b i c).is_terminal = b := rfl

@[simp] theorem TrieNode.inverted_index_mk (l b i c) :
    (TrieNode.mk l b i c).inverted_index = i := rfl

@[simp] theorem TrieNode.children_mk (l b i c) : (TrieNode.mk l b i c).children = c := rfl

/-- A fresh `TrieNode()` and the root of a fresh `CompactTrie()`
(src/compact_trie.py lines 5-20 and 26-28). -/
def emptyTrie : TrieNode := TrieNode.mk [] false [] []

/-- Dictionary lookup `children[char]` / `char in children`:
returns the value stored under key `c`, if any. -/
def getChild : List (Char × TrieNode) → Char → Option TrieNode
  | [], _ => none
  | p :: rest, c => if p.1 = c then some p.2 else getChild rest c

/-- Dictionary assignment `children[char] = node`: replaces the value under an
existing key in place, otherwise appends the new binding. -/
def setChild : List (Char × TrieNode) → Char → TrieNode → List (Char × TrieNode)
  | [], c, n => [(c, n)]
  | p :: rest, c, n => if p.1 = c then (c, n) :: rest else p :: setChild rest c n

@[simp] theorem getChild_nil (c : Char) : getChild [] c = none := rfl

@[simp] theorem getChild_cons (c' : Char) (n' : TrieNode) (rest : List (Char × TrieNode))
    (c : Char) : getChild ((c', n') :: rest) c = if c' = c then some n' else getChild rest c :=
  rfl

@[simp] theorem setChild_nil (c : Char) (n : TrieNode) : setChild [] c n = [(c, n)] := rfl

@[simp] theorem setChild_cons (c' : Char) (n' : TrieNode) (rest : List (Char × TrieNode))
    (c : Char) (n : TrieNode) :
    setChild ((c', n') :: rest) c n =
      if c' = c then (c, n) :: rest else (c', n') :: setChild rest c n := rfl

theorem getChild_setChild (cs : List (Char × TrieNode)) (c c' : Char) (n : TrieNode) :
    getChild (setChild cs c n) c' = if c' = c then some n else getChild cs c' := by
  induction cs with
  | nil =>
    by_cases h : c' = c
    · subst h; simp
    · have h2 : ¬ c = c' := fun hh => h hh.symm
      simp [h, h2]
  | cons p rest ih =>
    obtain ⟨a, m⟩ := p
    by_cases hp : a = c
    · subst hp
      by_cases h : c' = a
      · subst h; simp
      · have h2 : ¬ a = c' := fun hh => h hh.symm
        simp [h, h2]
    · by_cases h : a = c'
      · subst h
        simp [hp]
      · simp [hp, h, ih]

theorem sizeOf_getChild {cs : List (Char × TrieNode)} {c : Char} {n : TrieNode}
    (h : getChild cs c = some n) : sizeOf n < sizeOf cs := by
  induction cs with
  | nil => simp at h
  | cons p rest ih =>
    obtain ⟨a, m⟩ := p
    by_cases hp : a = c
    · rw [getChild_cons, if_pos hp] at h
      obtain rfl : m = n := Option.some.inj h
      simp only [List.cons.sizeOf_spec, Prod.mk.sizeOf_spec]
      omega
    · rw [getChild_cons, if_neg hp] at h
      have h2 := ih h
      simp only [List.cons.sizeOf_spec]
      omega

/-- `CompactTrie._find_mismatch_point` (src/compact_trie.py lines 30-40): the
length of the longest common prefix of `word` and `label`. -/
def find_mismatch_point : Word → Word → Nat
  | a :: as, b :: bs => if a = b then find_mismatch_point as bs + 1 else 0
  | _, _ => 0

@[simp] theorem find_mismatch_point_nil_left (v : Word) : find_mismatch_point [] v = 0 := by
  cases v <;> rfl

@[simp] theorem find_mismatch_point_nil_right (u : Word) : find_mismatch_point u [] = 0 := by
  cases u <;> rfl

theorem find_mismatch_point_cons (a b : Char) (as bs : Word) :
    find_mismatch_point (a :: as) (b :: bs) =
      if a = b then find_mismatch_point as bs + 1 else 0 := rfl

theorem find_mismatch_point_le_left (u v : Word) : find_mismatch_point u v ≤ u.length := by
  induction u generalizing v with
  | nil => simp
  | cons a as ih =>
    cases v with
    | nil => simp
    | cons b bs =>
      rw [find_mismatch_point_cons]
      by_cases h : a = b
      · simp only [if_pos h, List.length_cons]
        exact Nat.succ_le_succ (ih bs)
      · simp [if_neg h]

theorem find_mismatch_point_le_right (u v : Word) : find_mismatch_point u v ≤ v.length := by
  induction u generalizing v with
  | nil => simp
  | cons a as ih =>
    cases v with
    | nil => simp
    | cons b bs =>
      rw [find_mismatch_point_cons]
      by_cases h : a = b
      · simp only [if_pos h, List.length_cons]
        exact Nat.succ_le_succ (ih bs)
      · simp [if_neg h]

@[simp] theorem find_mismatch_point_self (u : Word) : find_mismatch_point u u = u.length := by
  induction u with
  | nil => simp
  | cons a as ih => simp [find_mismatch_point_cons, ih]

theorem eq_of_find_mismatch_point_eq_lengths {u v : Word}
    (h1 : find_mismatch_point u v = u.length) (h2 : find_mismatch_point u v = v.length) :
    u = v := by
  induction u generalizing v with
  | nil =>
    cases v with
    | nil => rfl
    | cons b bs => simp at h2
  | cons a as ih =>
    cases v with
    | nil => simp at h1
    | cons b bs =>
      rw [find_mismatch_point_cons] at h1 h2
      by_cases h : a = b
      · rw [if_pos h] at h1 h2
        simp only [List.length_cons, Nat.add_right_cancel_iff] at h1 h2
        subst h
        rw [ih h1 h2]
      · rw [if_neg h] at h1
        simp at h1

theorem find_mismatch_point_take_eq (u v : Word) :
    u.take (find_mismatch_point u v) = v.take (find_mismatch_point u v) := by
  induction u generalizing v with
  | nil => simp
  | cons a as ih =>
    cases v with
    | nil => simp
    | cons b bs =>
      rw [find_mismatch_point_cons]
      by_cases h : a = b
      · simp [if_pos h, h, ih bs]
      · simp [if_neg h]

theorem find_mismatch_point_append (p x y : Word) :
    find_mismatch_point (p ++ x) (p ++ y) = p.length + find_mismatch_point x y := by
  induction p with
  | nil => simp
  | cons a as ih => simp [find_mismatch_point_cons, ih]; omega

theorem find_mismatch_point_take_right (u v : Word) (i : Nat) :
    find_mismatch_point u (v.take i) = min (find_mismatch_point u v) i := by
  induction u generalizing v i with
  | nil => simp
  | cons a as ih =>
    cases v with
    | nil => simp
    | cons b bs =>
      cases i with
      | zero => simp
      | succ j =>
        rw [List.take_succ_cons, find_mismatch_point_cons, find_mismatch_point_cons]
        by_cases h : a = b
        · simp [if_pos h, ih bs j]
          omega
        · simp [if_neg h]

theorem find_mismatch_point_head_ne {u v : Word}
    (h1 : find_mismatch_point u v < u.length) (h2 : find_mismatch_point u v < v.length) :
    (u.drop (find_mismatch_point u v)).head? ≠ (v.drop (find_mismatch_point u v)).head? := by
  induction u generalizing v with
  | nil => simp at h1
  | cons a as ih =>
    cases v with
    | nil => simp at h2
    | cons b bs =>
      rw [find_mismatch_point_cons] at h1 h2 ⊢
      by_cases h : a = b
      · rw [if_pos h] at h1 h2 ⊢
        simp only [List.length_cons, Nat.add_lt_add_iff_right] at h1 h2
        simpa using ih h1 h2
      · simp [if_neg h, h]

theorem find_mismatch_point_pos_of_head_eq {a : Char} {u v : Word}
    (hu : u.head? = some a) (hv : v.head? = some a) : 0 < find_mismatch_point u v := by
  cases u with
  | nil => simp at hu
  | cons x xs =>
    cases v with
    | nil => simp at hv
    | cons y ys =>
      simp only [List.head?_cons, Option.some.injEq] at hu hv
      rw [find_mismatch_point_cons, if_pos (hu.trans hv.symm)]
      omega

/-- `CompactTrie.insert` (src/compact_trie.py lines 42-140), with the implicit
`self.root` receiver made explicit: the `while remaining_word:` loop becomes
recursion (case C descends into the child, every other case returns).  An empty
`word` skips the loop body entirely and leaves the node unchanged.  The two
`| _, ...` fallback arms and the final `else` arm are unreachable whenever every
child's label starts with its dictionary key (the Python code would raise an
`IndexError` on `[0]` of an empty string, respectively loop forever, there). -/
def TrieNode.insert (node : TrieNode) (word : Word) (doc_id freq : Nat) : TrieNode :=
  match node, word with
  | node, [] => node
  | .mk lbl b idx ch, c :: w' =>
    match hg : getChild ch c with
    | none =>
      -- Case 1: no path for this character; create a terminal child.
      .mk lbl b idx (setChild ch c (.mk (c :: w') true [(doc_id, freq)] []))
    | some child =>
      let i := find_mismatch_point (c :: w') child.label
      if i = (c :: w').length then
        if i = child.label.length then
          -- Case A: exact match; mark terminal and append the posting.
          .mk lbl b idx (setChild ch c
            (.mk child.label true (child.inverted_index ++ [(doc_id, freq)]) child.children))
        else
          -- Case B: word is a proper prefix of the label; split below the word.
          match child.label.drop i with
          | [] => node
          | r :: rest =>
            .mk lbl b idx (setChild ch c
              (.mk (c :: w') true [(doc_id, freq)]
                [(r, .mk (r :: rest) child.is_terminal child.inverted_index child.children)]))
      else if i = child.label.length then
        -- Case C: the label is a proper prefix of the word; descend.
        .mk lbl b idx (setChild ch c (child.insert ((c :: w').drop i) doc_id freq))
      else if 0 < i ∧ i < child.label.length then
        -- Case D: divergence; create a split node with two children.
        match child.label.drop i, (c :: w').drop i with
        | r :: rest, s :: srest =>
          .mk lbl b idx (setChild ch c
            (.mk (child.label.take i) false []
              [(r, .mk (r :: rest) child.is_terminal child.inverted_index child.children),
               (s, .mk (s :: srest) true [(doc_id, freq)] [])]))
        | _, _ => node
      else node
  termination_by sizeOf node
  decreasing_by
    have h1 := sizeOf_getChild hg
    simp
    omega

/-- `CompactTrie.find` (src/compact_trie.py lines 142-211), with the receiver
made explicit: the `while remaining_word:` loop becomes recursion.  For the
empty word the loop is skipped and the node's own terminal flag decides; the
branch that sets `remaining_word = ""` and breaks is inlined as the terminal
check on the child. -/
def TrieNode.find (node : TrieNode) (word : Word) : List Posting :=
  match node, word with
  | node, [] => if node.is_terminal then node.inverted_index else []
  | .mk _ _ _ ch, c :: w' =>
    match hg : getChild ch c with
    | none => []
    | some child =>
      let i := find_mismatch_point (c :: w') child.label
      if i = (c :: w').length then
        if i = child.label.length then
          if child.is_terminal then child.inverted_index else []
        else []
      else if i = child.label.length then
        child.find ((c :: w').drop i)
      else []
  termination_by sizeOf node
  decreasing_by
    have h1 := sizeOf_getChild hg
    simp
    omega

/-- One iteration of the `find` loop, as a function of the looked-up child:
the body of `TrieNode.find` after the `children[char]` lookup. -/
def childFind : Option TrieNode → Word → List Posting
  | none, _ => []
  | some child, word =>
    let i := find_mismatch_point word child.label
    if i = word.length then
      if i = child.label.length then
        if child.is_terminal then child.inverted_index else []
      else []
    else if i = child.label.length then
      child.find (word.drop i)
    else []

@[simp] theorem childFind_none (w : Word) : childFind none w = [] := rfl

theorem childFind_some (child : TrieNode) (w : Word) :
    childFind (some child) w =
      if find_mismatch_point w child.label = w.length then
        if find_mismatch_point w child.label = child.label.length then
          if child.is_terminal then child.inverted_index else []
        else []
      else if find_mismatch_point w child.label = child.label.length then
        child.find (w.drop (find_mismatch_point w child.label))
      else [] := rfl

theorem drop_ne_nil_of_lt {α : Type} {l : List α} {n : Nat} (h : n < l.length) :
    l.drop n ≠ [] := by
  simp only [ne_eq, List.drop_eq_nil_iff]
  omega

theorem TrieNode.find_nil (t : TrieNode) :
    t.find [] = if t.is_terminal then t.inverted_index else [] := by
  rw [TrieNode.find]

theorem TrieNode.find_cons (l : Word) (b : Bool) (idx : List Posting)
    (ch : List (Char × TrieNode)) (c : Char) (w' : Word) :
    (TrieNode.mk l b idx ch).find (c :: w') = childFind (getChild ch c) (c :: w') := by
  rw [TrieNode.find]
  cases hg : getChild ch c with
  | none => simp
  | some child => simp [childFind_some]

theorem TrieNode.insert_nil (t : TrieNode) (d f : Nat) : t.insert [] d f = t := by
  rw [TrieNode.insert]

theorem TrieNode.insert_case_none (l : Word) (b : Bool) (idx : List Posting)
    (ch : List (Char × TrieNode)) (c : Char) (w' : Word) (d f : Nat)
    (hg : getChild ch c = none) :
    (TrieNode.mk l b idx ch).insert (c :: w') d f =
      TrieNode.mk l b idx (setChild ch c (TrieNode.mk (c :: w') true [(d, f)] [])) := by
  rw [TrieNode.insert, hg]

theorem TrieNode.insert_case_exact (l : Word) (b : Bool) (idx : List Posting)
    (ch : List (Char × TrieNode)) (c : Char) (w' : Word) (d f : Nat) (child : TrieNode)
    (hg : getChild ch c = some child)
    (h1 : find_mismatch_point (c :: w') child.label = (c :: w').length)
    (h2 : find_mismatch_point (c :: w') child.label = child.label.length) :
    (TrieNode.mk l b idx ch).insert (c :: w') d f =
      TrieNode.mk l b idx (setChild ch c
        (TrieNode.mk child.label true (child.inverted_index ++ [(d, f)]) child.children)) := by
  rw [h1] at h2
  rw [TrieNode.insert, hg]
  simp [h1, h2]

theorem TrieNode.insert_case_word_prefix (l : Word) (b : Bool) (idx : List Posting)
    (ch : List (Char × TrieNode)) (c : Char) (w' : Word) (d f : Nat) (child : TrieNode)
    (r : Char) (rest : Word)
    (hg : getChild ch c = some child)
    (h1 : find_mismatch_point (c :: w') child.label = (c :: w').length)
    (h2 : find_mismatch_point (c :: w') child.label ≠ child.label.length)
    (hd : child.label.drop (find_mismatch_point (c :: w') child.label) = r :: rest) :
    (TrieNode.mk l b idx ch).insert (c :: w') d f =
      TrieNode.mk l b idx (setChild ch c
        (TrieNode.mk (c :: w') true [(d, f)]
          [(r, TrieNode.mk (r :: rest) child.is_terminal child.inverted_index
              child.children)])) := by
  rw [h1] at h2 hd
  rw [TrieNode.insert, hg]
  simp_all

theorem TrieNode.insert_case_descend (l : Word) (b : Bool) (idx : List Posting)
    (ch : List (Char × TrieNode)) (c : Char) (w' : Word) (d f : Nat) (child : TrieNode)
    (hg : getChild ch c = some child)
    (h1 : find_mismatch_point (c :: w') child.label ≠ (c :: w').length)
    (h2 : find_mismatch_point (c :: w') child.label = child.label.length) :
    (TrieNode.mk l b idx ch).insert (c :: w') d f =
      TrieNode.mk l b idx (setChild ch c
        (child.insert ((c :: w').drop (find_mismatch_point (c :: w') child.label)) d f)) := by
  rw [h2] at h1
  rw [TrieNode.insert, hg]
  simp_all

theorem TrieNode.insert_case_split (l : Word) (b : Bool) (idx : List Posting)
    (ch : List (Char × TrieNode)) (c : Char) (w' : Word) (d f : Nat) (child : TrieNode)
    (r s : Char) (rest srest : Word)
    (hg : getChild ch c = some child)
    (h1 : find_mismatch_point (c :: w') child.label ≠ (c :: w').length)
    (h2 : find_mismatch_point (c :: w') child.label ≠ child.label.length)
    (h3 : 0 < find_mismatch_point (c :: w') child.label)
    (h4 : find_mismatch_point (c :: w') child.label < child.label.length)
    (hdl : child.label.drop (find_mismatch_point (c :: w') child.label) = r :: rest)
    (hdw : (c :: w').drop (find_mismatch_point (c :: w') child.label) = s :: srest) :
    (TrieNode.mk l b idx ch).insert (c :: w') d f =
      TrieNode.mk l b idx (setChild ch c
        (TrieNode.mk (child.label.take (find_mismatch_point (c :: w') child.label)) false []
          [(r, TrieNode.mk (r :: rest) child.is_terminal child.inverted_index child.children),
           (s, TrieNode.mk (s :: srest) true [(d, f)] [])])) := by
  rw [TrieNode.insert, hg]
  simp_all

theorem childFind_nil_of_lt (lab : Word) (b : Bool) (idx : List Posting)
    (ch : List (Char × TrieNode)) (u : Word)
    (h : find_mismatch_point u lab < lab.length) :
    childFind (some (TrieNode.mk lab b idx ch)) u = [] := by
  rw [childFind_some]
  simp only [TrieNode.label_mk, TrieNode.is_terminal_mk, TrieNode.inverted_index_mk]
  have hne : find_mismatch_point u lab ≠ lab.length := Nat.ne_of_lt h
  by_cases h1 : find_mismatch_point u lab = u.length
  · rw [if_pos h1, if_neg hne]
  · rw [if_neg h1, if_neg hne]

theorem childFind_leaf (w : Word) (d f : Nat) (u : Word) (hu : u ≠ []) :
    childFind (some (TrieNode.mk w true [(d, f)] [])) u = if u = w then [(d, f)] else [] := by
  rw [childFind_some]
  simp only [TrieNode.label_mk, TrieNode.is_terminal_mk, TrieNode.inverted_index_mk]
  by_cases huw : u = w
  · subst huw
    simp
  · rw [if_neg huw]
    by_cases h1 : find_mismatch_point u w = u.length
    · by_cases h2 : find_mismatch_point u w = w.length
      · exact absurd (eq_of_find_mismatch_point_eq_lengths h1 h2) huw
      · rw [if_pos h1, if_neg h2]
    · by_cases h2 : find_mismatch_point u w = w.length
      · rw [if_neg h1, if_pos h2]
        have hlt : find_mismatch_point u w < u.length :=
          lt_of_le_of_ne (find_mismatch_point_le_left u w) h1
        obtain ⟨x, xs, hx⟩ := List.exists_cons_of_ne_nil (drop_ne_nil_of_lt hlt)
        rw [hx, TrieNode.find_cons]
        simp
      · rw [if_neg h1, if_neg h2]

theorem childFind_shift (p ρ : Word) (b : Bool) (idx : List Posting)
    (ch : List (Char × TrieNode)) (v : Word) :
    childFind (some (TrieNode.mk (p ++ ρ) b idx ch)) (p ++ v) =
      childFind (some (TrieNode.mk ρ b idx ch)) v := by
  rw [childFind_some, childFind_some]
  simp only [TrieNode.label_mk, TrieNode.is_terminal_mk, TrieNode.inverted_index_mk]
  rw [find_mismatch_point_append]
  simp only [List.length_append]
  have e1 : (p.length + find_mismatch_point v ρ = p.length + v.length) ↔
      (find_mismatch_point v ρ = v.length) := by omega
  have e2 : (p.length + find_mismatch_point v ρ = p.length + ρ.length) ↔
      (find_mismatch_point v ρ = ρ.length) := by omega
  by_cases h1 : find_mismatch_point v ρ = v.length
  · by_cases h2 : find_mismatch_point v ρ = ρ.length <;>
      simp [e1.mpr h1, h1, h2]
  · by_cases h2 : find_mismatch_point v ρ = ρ.length
    · have hne1 : ¬ (p.length + find_mismatch_point v ρ = p.length + v.length) := by
        simpa [e1] using h1
      rw [if_neg hne1, if_neg h1, if_pos (e2.mpr h2), if_pos h2]
      have hdrop : (p ++ v).drop (p.length + find_mismatch_point v ρ) =
          v.drop (find_mismatch_point v ρ) := by
        rw [← List.drop_drop]
        · rw [List.drop_left]
      rw [hdrop]
      have hlt : find_mismatch_point v ρ < v.length :=
        lt_of_le_of_ne (find_mismatch_point_le_left v ρ) h1
      have hne : v.drop (find_mismatch_point v ρ) ≠ [] := by
        intro hnil
        have := List.length_drop (find_mismatch_point v ρ) (l := v)
        rw [hnil] at this
        simp at this
        omega
      obtain ⟨x, xs, hx⟩ := List.exists_cons_of_ne_nil hne
      rw [hx, TrieNode.find_cons, TrieNode.find_cons]
    · have hne1 : ¬ (p.length + find_mismatch_point v ρ = p.length + v.length) := by
        simpa [e1] using h1
      have hne2 : ¬ (p.length + find_mismatch_point v ρ = p.length + ρ.length) := by
        simpa [e2] using h2
      simp [hne1, hne2, h1, h2]

theorem childFind_case_exact (lab : Word) (b0 : Bool) (idx0 : List Posting)
    (ch0 : List (Char × TrieNode)) (d f : Nat)
    (hterm : b0 = false → idx0 = []) (u : Word) :
    childFind (some (TrieNode.mk lab true (idx0 ++ [(d, f)]) ch0)) u =
      (if u = lab then childFind (some (TrieNode.mk lab b0 idx0 ch0)) u ++ [(d, f)]
       else childFind (some (TrieNode.mk lab b0 idx0 ch0)) u) := by
  rw [childFind_some, childFind_some]
  simp only [TrieNode.label_mk, TrieNode.is_terminal_mk, TrieNode.inverted_index_mk]
  by_cases huw : u = lab
  · subst huw
    simp only [find_mismatch_point_self, if_pos rfl, if_true]
    cases b0 with
    | false => simp [hterm rfl]
    | true => simp
  · rw [if_neg huw]
    by_cases h1 : find_mismatch_point u lab = u.length
    · by_cases h2 : find_mismatch_point u lab = lab.length
      · exact absurd (eq_of_find_mismatch_point_eq_lengths h1 h2) huw
      · rw [if_pos h1, if_neg h2, if_pos h1, if_neg h2]
    · by_cases h2 : find_mismatch_point u lab = lab.length
      · rw [if_neg h1, if_pos h2, if_neg h1, if_pos h2]
        have hlt : find_mismatch_point u lab < u.length :=
          lt_of_le_of_ne (find_mismatch_point_le_left u lab) h1
        obtain ⟨x, xs, hx⟩ := List.exists_cons_of_ne_nil (drop_ne_nil_of_lt hlt)
        rw [hx, TrieNode.find_cons, TrieNode.find_cons]
      · rw [if_neg h1, if_neg h2, if_neg h1, if_neg h2]

theorem TrieNode.insert_case_stuck (l : Word) (b : Bool) (idx : List Posting)
    (ch : List (Char × TrieNode)) (c : Char) (w' : Word) (d f : Nat) (child : TrieNode)
    (hg : getChild ch c = some child)
    (h1 : find_mismatch_point (c :: w') child.label ≠ (c :: w').length)
    (h2 : find_mismatch_point (c :: w') child.label ≠ child.label.length)
    (h3 : ¬ (0 < find_mismatch_point (c :: w') child.label ∧
        find_mismatch_point (c :: w') child.label < child.label.length)) :
    (TrieNode.mk l b idx ch).insert (c :: w') d f = TrieNode.mk l b idx ch := by
  rw [TrieNode.insert, hg]
  simp_all

theorem TrieNode.insert_cons_fields (l : Word) (b : Bool) (idx : List Posting)
    (ch : List (Char × TrieNode)) (c : Char) (w' : Word) (d f : Nat) :
    ∃ ch2, (TrieNode.mk l b idx ch).insert (c :: w') d f = TrieNode.mk l b idx ch2 := by
  cases hg : getChild ch c with
  | none => exact ⟨_, TrieNode.insert_case_none l b idx ch c w' d f hg⟩
  | some child =>
    by_cases h1 : find_mismatch_point (c :: w') child.label = (c :: w').length
    · by_cases h2 : find_mismatch_point (c :: w') child.label = child.label.length
      · exact ⟨_, TrieNode.insert_case_exact l b idx ch c w' d f child hg h1 h2⟩
      · have hlt : find_mismatch_point (c :: w') child.label < child.label.length :=
          lt_of_le_of_ne (find_mismatch_point_le_right _ _) h2
        obtain ⟨r, rest, hd⟩ := List.exists_cons_of_ne_nil (drop_ne_nil_of_lt hlt)
        exact ⟨_, TrieNode.insert_case_word_prefix l b idx ch c w' d f child r rest hg h1 h2 hd⟩
    · by_cases h2 : find_mismatch_point (c :: w') child.label = child.label.length
      · exact ⟨_, TrieNode.insert_case_descend l b idx ch c w' d f child hg h1 h2⟩
      · by_cases h3 : 0 < find_mismatch_point (c :: w') child.label
        · have h4 : find_mismatch_point (c :: w') child.label < child.label.length :=
            lt_of_le_of_ne (find_mismatch_point_le_right _ _) h2
          have hltw : find_mismatch_point (c :: w') child.label < (c :: w').length :=
            lt_of_le_of_ne (find_mismatch_point_le_left _ _) h1
          obtain ⟨r, rest, hdl⟩ := List.exists_cons_of_ne_nil (drop_ne_nil_of_lt h4)
          obtain ⟨s, srest, hdw⟩ := List.exists_cons_of_ne_nil (drop_ne_nil_of_lt hltw)
          exact ⟨_, TrieNode.insert_case_split l b idx ch c w' d f child r s rest srest
            hg h1 h2 h3 h4 hdl hdw⟩
        · refine ⟨ch, TrieNode.insert_case_stuck l b idx ch c w' d f child hg h1 h2 ?_⟩
          intro hc
          exact h3 hc.1

theorem TrieNode.insert_label (t : TrieNode) (w : Word) (d f : Nat) :
    (t.insert w d f).label = t.label := by
  obtain ⟨l, b, idx, ch⟩ := t
  cases w with
  | nil => rw [TrieNode.insert_nil]
  | cons c w' =>
    obtain ⟨ch2, h⟩ := TrieNode.insert_cons_fields l b idx ch c w' d f
    rw [h]
    rfl

theorem TrieNode.insert_is_terminal (t : TrieNode) (w : Word) (d f : Nat) :
    (t.insert w d f).is_terminal = t.is_terminal := by
  obtain ⟨l, b, idx, ch⟩ := t
  cases w with
  | nil => rw [TrieNode.insert_nil]
  | cons c w' =>
    obtain ⟨ch2, h⟩ := TrieNode.insert_cons_fields l b idx ch c w' d f
    rw [h]
    rfl

theorem TrieNode.insert_inverted_index (t : TrieNode) (w : Word) (d f : Nat) :
    (t.insert w d f).inverted_index = t.inverted_index := by
  obtain ⟨l, b, idx, ch⟩ := t
  cases w with
  | nil => rw [TrieNode.insert_nil]
  | cons c w' =>
    obtain ⟨ch2, h⟩ := TrieNode.insert_cons_fields l b idx ch c w' d f
    rw [h]
    rfl

theorem head?_take_of_pos {α : Type} (l : List α) {n : Nat} (h : 0 < n) :
    (l.take n).head? = l.head? := by
  cases l with
  | nil => simp
  | cons a as =>
    cases n with
    | zero => omega
    | succ m => simp

theorem find_mismatch_point_append_left (w v : Word) :
    find_mismatch_point (w ++ v) w = w.length := by
  have h := find_mismatch_point_append w v []
  simpa using h

theorem find_mismatch_point_self_append (w v : Word) :
    find_mismatch_point w (w ++ v) = w.length := by
  have h := find_mismatch_point_append w [] v
  simpa using h

/-- Structural invariant of every trie built by `insert` from a fresh root: each
child of a node is stored under the first character of its non-empty label, and
a non-terminal node has an empty posting list. -/
inductive WF : TrieNode → Prop where
  | mk : ∀ (l : Word) (b : Bool) (idx : List Posting) (ch : List (Char × TrieNode)),
      (∀ c n, getChild ch c = some n → n.label.head? = some c) →
      (∀ c n, getChild ch c = some n → WF n) →
      (b = false → idx = []) →
      WF (TrieNode.mk l b idx ch)

theorem WF.head_of_getChild {t : TrieNode} (h : WF t) {c : Char} {n : TrieNode}
    (hg : getChild t.children c = some n) : n.label.head? = some c := by
  cases h with
  | mk l b idx ch hh hw hi => exact hh c n hg

theorem WF.wf_of_getChild {t : TrieNode} (h : WF t) {c : Char} {n : TrieNode}
    (hg : getChild t.children c = some n) : WF n := by
  cases h with
  | mk l b idx ch hh hw hi => exact hw c n hg

theorem WF.index_empty {t : TrieNode} (h : WF t) :
    t.is_terminal = false → t.inverted_index = [] := by
  cases h with
  | mk l b idx ch hh hw hi => exact hi

theorem WF_emptyTrie : WF emptyTrie := by
  refine WF.mk [] false [] [] ?_ ?_ ?_
  · intro c n h; simp at h
  · intro c n h; simp at h
  · intro _; rfl

theorem WF_leaf (w : Word) (d f : Nat) : WF (TrieNode.mk w true [(d, f)] []) := by
  refine WF.mk _ _ _ _ ?_ ?_ ?_
  · intro c n h; simp at h
  · intro c n h; simp at h
  · intro h; simp at h

theorem WF_setChild {l : Word} {b : Bool} {idx : List Posting}
    {ch : List (Char × TrieNode)} (hwf : WF (TrieNode.mk l b idx ch)) (c : Char)
    {NEW : TrieNode} (hl : NEW.label.head? = some c) (hN : WF NEW) :
    WF (TrieNode.mk l b idx (setChild ch c NEW)) := by
  cases hwf with
  | mk _ _ _ _ hh hw hi =>
    refine WF.mk _ _ _ _ ?_ ?_ hi
    · intro c'' n hgc
      rw [getChild_setChild] at hgc
      by_cases hcc : c'' = c
      · rw [if_pos hcc] at hgc
        obtain rfl := Option.some.inj hgc
        rw [hl, hcc]
      · rw [if_neg hcc] at hgc
        exact hh _ _ hgc
    · intro c'' n hgc
      rw [getChild_setChild] at hgc
      by_cases hcc : c'' = c
      · rw [if_pos hcc] at hgc
        obtain rfl := Option.some.inj hgc
        exact hN
      · rw [if_neg hcc] at hgc
        exact hw _ _ hgc

theorem find_setChild_self (l : Word) (b : Bool) (idx : List Posting)
    (ch : List (Char × TrieNode)) (c : Char) (NEW : TrieNode) (u'' : Word) :
    (TrieNode.mk l b idx (setChild ch c NEW)).find (c :: u'') =
      childFind (some NEW) (c :: u'') := by
  rw [TrieNode.find_cons, getChild_setChild, if_pos rfl]

theorem find_setChild_other (l : Word) (b : Bool) (idx : List Posting)
    (ch : List (Char × TrieNode)) (c : Char) (NEW : TrieNode) (u0 : Char) (u'' : Word)
    (hc : ¬ u0 = c) :
    (TrieNode.mk l b idx (setChild ch c NEW)).find (u0 :: u'') =
      (TrieNode.mk l b idx ch).find (u0 :: u'') := by
  rw [TrieNode.find_cons, TrieNode.find_cons, getChild_setChild, if_neg hc]

theorem childFind_case_word_prefix_spec (w : Word) (r : Char) (rest : Word)
    (b0 : Bool) (idx0 : List Posting) (ch0 : List (Char × TrieNode)) (d f : Nat)
    (lab : Word) (hlab : lab = w ++ r :: rest) (u : Word) (hu : u ≠ []) :
    childFind (some (TrieNode.mk w true [(d, f)]
        [(r, TrieNode.mk (r :: rest) b0 idx0 ch0)])) u =
      (if u = w then childFind (some (TrieNode.mk lab b0 idx0 ch0)) u ++ [(d, f)]
       else childFind (some (TrieNode.mk lab b0 idx0 ch0)) u) := by
  subst hlab
  by_cases huw : u = w
  · subst huw
    rw [if_pos rfl, childFind_some, childFind_some]
    simp only [TrieNode.label_mk, TrieNode.is_terminal_mk, TrieNode.inverted_index_mk]
    rw [find_mismatch_point_self, find_mismatch_point_self_append]
    have hlen : ¬ (u.length = (u ++ r :: rest).length) := by
      simp
    rw [if_pos rfl, if_pos rfl, if_pos rfl, if_neg hlen]
    simp
  · rw [if_neg huw]
    have hk : find_mismatch_point u w = min (find_mismatch_point u (w ++ r :: rest)) w.length := by
      have h1 := find_mismatch_point_take_right u (w ++ r :: rest) w.length
      rw [List.take_left] at h1
      exact h1
    by_cases hjlt : find_mismatch_point u (w ++ r :: rest) < w.length
    · have hkj : find_mismatch_point u w = find_mismatch_point u (w ++ r :: rest) :=
        hk.trans (min_eq_left (le_of_lt hjlt))
      have hc1 : find_mismatch_point u w < w.length := by rw [hkj]; exact hjlt
      have hc2 : find_mismatch_point u (w ++ r :: rest) < (w ++ r :: rest).length := by
        rw [List.length_append]
        omega
      rw [childFind_nil_of_lt _ _ _ _ _ hc1, childFind_nil_of_lt _ _ _ _ _ hc2]
    · push_neg at hjlt
      have hkw : find_mismatch_point u w = w.length := hk.trans (min_eq_right hjlt)
      have hwle : w.length ≤ u.length := by
        have := find_mismatch_point_le_left u w
        omega
      have hlt : w.length < u.length := by
        rcases Nat.lt_or_ge w.length u.length with h | h
        · exact h
        · exfalso
          have hul : u.length = w.length := le_antisymm (by omega) hwle
          exact huw (eq_of_find_mismatch_point_eq_lengths (by rw [hkw, hul]) hkw)
      obtain ⟨v0, v'', hv⟩ := List.exists_cons_of_ne_nil (drop_ne_nil_of_lt hlt)
      have hu_eq : u = w ++ v0 :: v'' := by
        conv_lhs => rw [← List.take_append_drop w.length u]
        rw [hv]
        have ht := find_mismatch_point_take_eq u w
        rw [hkw] at ht
        rw [ht, List.take_length]
      rw [hu_eq, childFind_shift, childFind_some]
      simp only [TrieNode.label_mk, TrieNode.is_terminal_mk, TrieNode.inverted_index_mk]
      rw [find_mismatch_point_append_left]
      have hlen1 : ¬ (w.length = (w ++ v0 :: v'').length) := by
        simp
      rw [if_neg hlen1, if_pos rfl, List.drop_left, TrieNode.find_cons]
      by_cases hvr : r = v0
      · subst hvr
        simp
      · simp only [getChild_cons, if_neg hvr, getChild_nil, childFind_none]
        have hz : find_mismatch_point (v0 :: v'') (r :: rest) < (r :: rest).length := by
          rw [find_mismatch_point_cons, if_neg (fun h => hvr h.symm)]
          simp
        rw [childFind_nil_of_lt _ _ _ _ _ hz]

theorem childFind_case_descend_spec (lab om : Word) (hom : om ≠ [])
    (b0 : Bool) (idx0 : List Posting) (ch0 : List (Char × TrieNode)) (d f : Nat)
    (NEW : TrieNode) (hNl : NEW.label = lab) (hNb : NEW.is_terminal = b0)
    (hNi : NEW.inverted_index = idx0)
    (hIH : ∀ v : Word, v ≠ [] → NEW.find v =
      (if v = om then (TrieNode.mk lab b0 idx0 ch0).find v ++ [(d, f)]
       else (TrieNode.mk lab b0 idx0 ch0).find v))
    (w : Word) (hw : w = lab ++ om) (u : Word) (hu : u ≠ []) :
    childFind (some NEW) u =
      (if u = w then childFind (some (TrieNode.mk lab b0 idx0 ch0)) u ++ [(d, f)]
       else childFind (some (TrieNode.mk lab b0 idx0 ch0)) u) := by
  subst hw
  obtain ⟨lN, bN, idxN, chN⟩ := NEW
  simp only [TrieNode.label_mk, TrieNode.is_terminal_mk, TrieNode.inverted_index_mk]
    at hNl hNb hNi
  subst lN
  subst bN
  subst idxN
  rw [childFind_some, childFind_some]
  simp only [TrieNode.label_mk, TrieNode.is_terminal_mk, TrieNode.inverted_index_mk]
  by_cases hj1 : find_mismatch_point u lab = u.length
  · by_cases hj2 : find_mismatch_point u lab = lab.length
    · have hue : u = lab := eq_of_find_mismatch_point_eq_lengths hj1 hj2
      have hne : ¬ u = lab ++ om := by
        intro h
        rw [hue] at h
        have := congrArg List.length h
        simp at this
        exact hom this
      rw [if_neg hne, if_pos hj1, if_pos hj2, if_pos hj1]
    · have hne : ¬ u = lab ++ om := by
        intro h
        exact hj2 (by rw [h, find_mismatch_point_append_left])
      rw [if_neg hne, if_pos hj1, if_neg hj2, if_pos hj1]
  · by_cases hj2 : find_mismatch_point u lab = lab.length
    · rw [if_neg hj1, if_pos hj2, if_neg hj1, if_pos hj2]
      have hvne : u.drop (find_mismatch_point u lab) ≠ [] :=
        drop_ne_nil_of_lt (lt_of_le_of_ne (find_mismatch_point_le_left u lab) hj1)
      rw [hIH _ hvne]
      have ht : u.take (find_mismatch_point u lab) = lab := by
        rw [find_mismatch_point_take_eq u lab, hj2, List.take_length]
      have hdec : u = lab ++ u.drop (find_mismatch_point u lab) := by
        conv_lhs => rw [← List.take_append_drop (find_mismatch_point u lab) u]
        rw [ht]
      have hiff : (u = lab ++ om) ↔ (u.drop (find_mismatch_point u lab) = om) := by
        constructor
        · intro h
          have h2 : u.drop (find_mismatch_point u lab) = (lab ++ om).drop lab.length := by
            rw [← h, hj2]
          rw [h2, List.drop_left]
        · intro h
          rw [hdec, h]
      by_cases hcond : u = lab ++ om
      · rw [if_pos hcond, if_pos (hiff.mp hcond)]
      · rw [if_neg hcond, if_neg (fun hh => hcond (hiff.mpr hh))]
    · have hne : ¬ u = lab ++ om := by
        intro h
        exact hj2 (by rw [h, find_mismatch_point_append_left])
      rw [if_neg hj1, if_neg hj2, if_neg hj1, if_neg hj2, if_neg hne]

theorem childFind_case_split_spec (p : Word) (r s : Char) (hrs : r ≠ s)
    (rest srest : Word) (b0 : Bool) (idx0 : List Posting) (ch0 : List (Char × TrieNode))
    (d f : Nat) (lab w : Word) (hlab : lab = p ++ r :: rest) (hw : w = p ++ s :: srest)
    (u : Word) (hu : u ≠ []) :
    childFind (some (TrieNode.mk p false []
        [(r, TrieNode.mk (r :: rest) b0 idx0 ch0),
         (s, TrieNode.mk (s :: srest) true [(d, f)] [])])) u =
      (if u = w then childFind (some (TrieNode.mk lab b0 idx0 ch0)) u ++ [(d, f)]
       else childFind (some (TrieNode.mk lab b0 idx0 ch0)) u) := by
  subst hlab
  subst hw
  have hk : find_mismatch_point u p = min (find_mismatch_point u (p ++ r :: rest)) p.length := by
    have h1 := find_mismatch_point_take_right u (p ++ r :: rest) p.length
    rw [List.take_left] at h1
    exact h1
  by_cases hjlt : find_mismatch_point u (p ++ r :: rest) < p.length
  · have hkj : find_mismatch_point u p = find_mismatch_point u (p ++ r :: rest) :=
      hk.trans (min_eq_left (le_of_lt hjlt))
    have hne : ¬ u = p ++ s :: srest := by
      intro h
      have ha := find_mismatch_point_append p (s :: srest) (r :: rest)
      rw [← h] at ha
      omega
    have hc1 : find_mismatch_point u p < p.length := by rw [hkj]; exact hjlt
    have hc2 : find_mismatch_point u (p ++ r :: rest) < (p ++ r :: rest).length := by
      rw [List.length_append]
      omega
    rw [if_neg hne, childFind_nil_of_lt _ _ _ _ _ hc1, childFind_nil_of_lt _ _ _ _ _ hc2]
  · push_neg at hjlt
    have hkp : find_mismatch_point u p = p.length := hk.trans (min_eq_right hjlt)
    by_cases hul : u.length = p.length
    · have hue : u = p := by
        refine eq_of_find_mismatch_point_eq_lengths ?_ hkp
        rw [hkp, hul]
      subst hue
      have hne : ¬ u = u ++ s :: srest := by
        intro h
        have := congrArg List.length h
        simp at this
      rw [if_neg hne, childFind_some, childFind_some]
      simp only [TrieNode.label_mk, TrieNode.is_terminal_mk, TrieNode.inverted_index_mk]
      have hj : find_mismatch_point u (u ++ r :: rest) = u.length :=
        find_mismatch_point_self_append u (r :: rest)
      have hlen2 : ¬ (u.length = (u ++ r :: rest).length) := by
        simp
      rw [find_mismatch_point_self, hj, if_pos rfl, if_pos rfl, if_pos rfl, if_neg hlen2]
      simp
    · have hplt : p.length < u.length := by
        have := find_mismatch_point_le_left u p
        omega
      obtain ⟨v0, v'', hv⟩ := List.exists_cons_of_ne_nil (drop_ne_nil_of_lt hplt)
      have hu_eq : u = p ++ v0 :: v'' := by
        conv_lhs => rw [← List.take_append_drop p.length u]
        rw [hv]
        have ht := find_mismatch_point_take_eq u p
        rw [hkp] at ht
        rw [ht, List.take_length]
      rw [hu_eq, childFind_shift, childFind_some]
      simp only [TrieNode.label_mk, TrieNode.is_terminal_mk, TrieNode.inverted_index_mk]
      rw [find_mismatch_point_append_left]
      have hlen1 : ¬ (p.length = (p ++ v0 :: v'').length) := by
        simp
      rw [if_neg hlen1, if_pos rfl, List.drop_left, TrieNode.find_cons]
      simp only [List.append_cancel_left_eq]
      by_cases hvr : r = v0
      · subst hvr
        rw [getChild_cons, if_pos rfl]
        have hne2 : ¬ (r :: v'' = s :: srest) := by
          intro h
          injection h with h1 _
          exact hrs h1
        rw [if_neg hne2]
      · by_cases hvs : s = v0
        · subst hvs
          rw [getChild_cons, if_neg hvr, getChild_cons, if_pos rfl]
          rw [childFind_leaf _ _ _ _ (by simp)]
          have hz : find_mismatch_point (s :: v'') (r :: rest) < (r :: rest).length := by
            rw [find_mismatch_point_cons, if_neg (fun h => hvr h.symm)]
            simp
          rw [childFind_nil_of_lt _ _ _ _ _ hz]
          by_cases hc : (s :: v'') = s :: srest
          · rw [if_pos hc, if_pos hc]
            simp
          · rw [if_neg hc, if_neg hc]
        · rw [getChild_cons, if_neg hvr, getChild_cons, if_neg hvs, getChild_nil,
            childFind_none]
          have hz : find_mismatch_point (v0 :: v'') (r :: rest) < (r :: rest).length := by
            rw [find_mismatch_point_cons, if_neg (fun h => hvr h.symm)]
            simp
          rw [childFind_nil_of_lt _ _ _ _ _ hz]
          have hne2 : ¬ (v0 :: v'' = s :: srest) := by
            intro h
            injection h with h1 _
            exact hvs h1.symm
          rw [if_neg hne2]

theorem insert_find_spec : ∀ (N : Nat) (t : TrieNode), sizeOf t ≤ N → WF t →
    ∀ (w : Word) (d f : Nat), w ≠ [] →
      WF (t.insert w d f) ∧
      ∀ u : Word, u ≠ [] →
        (t.insert w d f).find u = (if u = w then t.find u ++ [(d, f)] else t.find u) := by
  intro N
  induction N with
  | zero =>
    intro t hsz
    exfalso
    obtain ⟨l, b, idx, ch⟩ := t
    simp only [TrieNode.mk.sizeOf_spec] at hsz
    omega
  | succ N ih =>
    intro t hsz hwf w d f hwne
    obtain ⟨l, b, idx, ch⟩ := t
    obtain ⟨c, w', rfl⟩ := List.exists_cons_of_ne_nil hwne
    cases hg : getChild ch c with
    | none =>
      rw [TrieNode.insert_case_none l b idx ch c w' d f hg]
      constructor
      · exact WF_setChild hwf c (by simp) (WF_leaf _ d f)
      · intro u hu
        obtain ⟨u0, u'', rfl⟩ := List.exists_cons_of_ne_nil hu
        by_cases hc : u0 = c
        · subst hc
          rw [find_setChild_self, TrieNode.find_cons, hg, childFind_none,
            childFind_leaf _ _ _ _ (by simp)]
          by_cases hcond : (u0 :: u'') = u0 :: w'
          · rw [if_pos hcond, if_pos hcond]
            simp
          · rw [if_neg hcond, if_neg hcond]
        · have hne : (u0 :: u'') ≠ (c :: w') := by
            intro he
            injection he with he1 _
            exact hc he1
          rw [find_setChild_other _ _ _ _ _ _ _ _ hc, if_neg hne]
    | some child =>
      have hhead : child.label.head? = some c := hwf.head_of_getChild hg
      have hwfc : WF child := hwf.wf_of_getChild hg
      obtain ⟨lab, b0, idx0, ch0⟩ := child
      simp only [TrieNode.label_mk] at hhead
      have hpos : 0 < find_mismatch_point (c :: w') lab :=
        find_mismatch_point_pos_of_head_eq (by simp) hhead
      by_cases h1 : find_mismatch_point (c :: w') lab = (c :: w').length
      · by_cases h2 : find_mismatch_point (c :: w') lab = lab.length
        · -- Case A: exact match.
          have hwe : (c :: w') = lab := eq_of_find_mismatch_point_eq_lengths h1 h2
          rw [TrieNode.insert_case_exact l b idx ch c w' d f _ hg h1 h2]
          simp only [TrieNode.label_mk, TrieNode.is_terminal_mk, TrieNode.inverted_index_mk,
            TrieNode.children_mk]
          constructor
          · refine WF_setChild hwf c ?_ ?_
            · simpa using hhead
            · refine WF.mk _ _ _ _ ?_ ?_ ?_
              · intro cc n h
                exact hwfc.head_of_getChild h
              · intro cc n h
                exact hwfc.wf_of_getChild h
              · intro h
                simp at h
          · intro u hu
            obtain ⟨u0, u'', rfl⟩ := List.exists_cons_of_ne_nil hu
            by_cases hc : u0 = c
            · subst hc
              rw [find_setChild_self, TrieNode.find_cons, hg,
                childFind_case_exact lab b0 idx0 ch0 d f hwfc.index_empty, hwe]
            · have hne : (u0 :: u'') ≠ (c :: w') := by
                intro he
                injection he with he1 _
                exact hc he1
              rw [find_setChild_other _ _ _ _ _ _ _ _ hc, if_neg hne]
        · -- Case B: the word is a proper prefix of the label.
          have hlt : find_mismatch_point (c :: w') lab < lab.length :=
            lt_of_le_of_ne (find_mismatch_point_le_right _ _) h2
          obtain ⟨r, rest, hd⟩ := List.exists_cons_of_ne_nil (drop_ne_nil_of_lt hlt)
          rw [TrieNode.insert_case_word_prefix l b idx ch c w' d f _ r rest hg h1 h2 hd]
          simp only [TrieNode.label_mk, TrieNode.is_terminal_mk, TrieNode.inverted_index_mk,
            TrieNode.children_mk]
          have hlab : lab = (c :: w') ++ r :: rest := by
            conv_lhs => rw [← List.take_append_drop (find_mismatch_point (c :: w') lab) lab]
            rw [hd]
            have ht := find_mismatch_point_take_eq (c :: w') lab
            rw [h1, List.take_length] at ht
            rw [h1, ← ht]
          constructor
          · refine WF_setChild hwf c (by simp) ?_
            refine WF.mk _ _ _ _ ?_ ?_ ?_
            · intro cc n h
              rw [getChild_cons] at h
              by_cases hcc : r = cc
              · rw [if_pos hcc] at h
                obtain rfl := Option.some.inj h
                simp [hcc]
              · rw [if_neg hcc] at h
                simp at h
            · intro cc n h
              rw [getChild_cons] at h
              by_cases hcc : r = cc
              · rw [if_pos hcc] at h
                obtain rfl := Option.some.inj h
                exact WF.mk _ _ _ _ (fun c3 n3 h3 => hwfc.head_of_getChild h3)
                  (fun c3 n3 h3 => hwfc.wf_of_getChild h3) hwfc.index_empty
              · rw [if_neg hcc] at h
                simp at h
            · intro h
              simp at h
          · intro u hu
            obtain ⟨u0, u'', rfl⟩ := List.exists_cons_of_ne_nil hu
            by_cases hc : u0 = c
            · subst hc
              rw [find_setChild_self, TrieNode.find_cons, hg]
              exact childFind_case_word_prefix_spec (u0 :: w') r rest b0 idx0 ch0 d f lab
                hlab (u0 :: u'') (by simp)
            · have hne : (u0 :: u'') ≠ (c :: w') := by
                intro he
                injection he with he1 _
                exact hc he1
              rw [find_setChild_other _ _ _ _ _ _ _ _ hc, if_neg hne]
      · by_cases h2 : find_mismatch_point (c :: w') lab = lab.length
        · -- Case C: the label is a proper prefix of the word; descend.
          rw [TrieNode.insert_case_descend l b idx ch c w' d f _ hg h1 h2]
          simp only [TrieNode.label_mk]
          have hltw : find_mismatch_point (c :: w') lab < (c :: w').length :=
            lt_of_le_of_ne (find_mismatch_point_le_left _ _) h1
          have hom : (c :: w').drop (find_mismatch_point (c :: w') lab) ≠ [] :=
            drop_ne_nil_of_lt hltw
          have hszc : sizeOf (TrieNode.mk lab b0 idx0 ch0) ≤ N := by
            have hlt2 := sizeOf_getChild hg
            simp only [TrieNode.mk.sizeOf_spec] at hsz
            omega
          obtain ⟨hWFN, hFIND⟩ := ih (TrieNode.mk lab b0 idx0 ch0) hszc hwfc _ d f hom
          have hwdec : (c :: w') =
              lab ++ (c :: w').drop (find_mismatch_point (c :: w') lab) := by
            conv_lhs =>
              rw [← List.take_append_drop (find_mismatch_point (c :: w') lab) (c :: w')]
            have ht := find_mismatch_point_take_eq (c :: w') lab
            rw [h2, List.take_length] at ht
            rw [h2, ht]
          constructor
          · refine WF_setChild hwf c ?_ hWFN
            rw [TrieNode.insert_label]
            simpa using hhead
          · intro u hu
            obtain ⟨u0, u'', rfl⟩ := List.exists_cons_of_ne_nil hu
            by_cases hc : u0 = c
            · subst hc
              rw [find_setChild_self, TrieNode.find_cons, hg]
              exact childFind_case_descend_spec lab _ hom b0 idx0 ch0 d f _
                (by simp [TrieNode.insert_label]) (by simp [TrieNode.insert_is_terminal])
                (by simp [TrieNode.insert_inverted_index]) hFIND (u0 :: w') hwdec
                (u0 :: u'') (by simp)
            · have hne : (u0 :: u'') ≠ (c :: w') := by
                intro he
                injection he with he1 _
                exact hc he1
              rw [find_setChild_other _ _ _ _ _ _ _ _ hc, if_neg hne]
        · -- Case D: divergence; split node.
          have h4 : find_mismatch_point (c :: w') lab < lab.length :=
            lt_of_le_of_ne (find_mismatch_point_le_right _ _) h2
          have hltw : find_mismatch_point (c :: w') lab < (c :: w').length :=
            lt_of_le_of_ne (find_mismatch_point_le_left _ _) h1
          obtain ⟨r, rest, hdl⟩ := List.exists_cons_of_ne_nil (drop_ne_nil_of_lt h4)
          obtain ⟨s, srest, hdw⟩ := List.exists_cons_of_ne_nil (drop_ne_nil_of_lt hltw)
          rw [TrieNode.insert_case_split l b idx ch c w' d f _ r s rest srest hg h1 h2
            hpos h4 hdl hdw]
          simp only [TrieNode.label_mk, TrieNode.is_terminal_mk, TrieNode.inverted_index_mk,
            TrieNode.children_mk]
          have hrs : r ≠ s := by
            have hne := find_mismatch_point_head_ne (u := c :: w') (v := lab) hltw h4
            rw [hdw, hdl] at hne
            simp only [List.head?_cons, ne_eq, Option.some.injEq] at hne
            exact fun h => hne h.symm
          have hlab2 : lab = lab.take (find_mismatch_point (c :: w') lab) ++ r :: rest := by
            conv_lhs => rw [← List.take_append_drop (find_mismatch_point (c :: w') lab) lab]
            rw [hdl]
          have hw2 : (c :: w') =
              lab.take (find_mismatch_point (c :: w') lab) ++ s :: srest := by
            conv_lhs =>
              rw [← List.take_append_drop (find_mismatch_point (c :: w') lab) (c :: w')]
            rw [hdw, find_mismatch_point_take_eq (c :: w') lab]
          constructor
          · refine WF_setChild hwf c ?_ ?_
            · simp only [TrieNode.label_mk]
              rw [head?_take_of_pos _ hpos]
              exact hhead
            · refine WF.mk _ _ _ _ ?_ ?_ ?_
              · intro cc n h
                rw [getChild_cons] at h
                by_cases hcc : r = cc
                · rw [if_pos hcc] at h
                  obtain rfl := Option.some.inj h
                  simp [hcc]
                · rw [if_neg hcc, getChild_cons] at h
                  by_cases hcs : s = cc
                  · rw [if_pos hcs] at h
                    obtain rfl := Option.some.inj h
                    simp [hcs]
                  · rw [if_neg hcs] at h
                    simp at h
              · intro cc n h
                rw [getChild_cons] at h
                by_cases hcc : r = cc
                · rw [if_pos hcc] at h
                  obtain rfl := Option.some.inj h
                  exact WF.mk _ _ _ _ (fun c3 n3 h3 => hwfc.head_of_getChild h3)
                    (fun c3 n3 h3 => hwfc.wf_of_getChild h3) hwfc.index_empty
                · rw [if_neg hcc, getChild_cons] at h
                  by_cases hcs : s = cc
                  · rw [if_pos hcs] at h
                    obtain rfl := Option.some.inj h
                    exact WF_leaf _ d f
                  · rw [if_neg hcs] at h
                    simp at h
              · intro _
                rfl
          · intro u hu
            obtain ⟨u0, u'', rfl⟩ := List.exists_cons_of_ne_nil hu
            by_cases hc : u0 = c
            · subst hc
              rw [find_setChild_self, TrieNode.find_cons, hg]
              exact childFind_case_split_spec (lab.take (find_mismatch_point (u0 :: w') lab))
                r s hrs rest srest b0 idx0 ch0 d f lab (u0 :: w') hlab2 hw2
                (u0 :: u'') (by simp)
            · have hne : (u0 :: u'') ≠ (c :: w') := by
                intro he
                injection he with he1 _
                exact hc he1
              rw [find_setChild_other _ _ _ _ _ _ _ _ hc, if_neg hne]

/-- Building a trie by a finite sequence of `insert(term, doc_id, freq)` calls on a
fresh `CompactTrie()` — the indexer's usage pattern (src/indexer.py line 107). -/
def buildTrie (ops : List (Word × Nat × Nat)) : TrieNode :=
  ops.foldl (fun t p => t.insert p.1 p.2.1 p.2.2) emptyTrie

/-- The `(doc_id, freq)` postings inserted for a given term, in insertion order. -/
def postingsFor (ops : List (Word × Nat × Nat)) (t : Word) : List Posting :=
  (ops.filter (fun p => p.1 == t)).map (fun p => (p.2.1, p.2.2))

theorem postingsFor_nil (t : Word) : postingsFor [] t = [] := rfl

theorem postingsFor_cons (w : Word) (d f : Nat) (rest : List (Word × Nat × Nat)) (t : Word) :
    postingsFor ((w, d, f) :: rest) t =
      (if t = w then (d, f) :: postingsFor rest t else postingsFor rest t) := by
  by_cases h : t = w
  · subst h
    simp [postingsFor]
  · have h2 : ¬ (w = t) := fun hh => h hh.symm
    simp [postingsFor, h, h2]

theorem buildTrie_find_aux : ∀ (ops : List (Word × Nat × Nat)) (t0 : TrieNode), WF t0 →
    (∀ p ∈ ops, p.1 ≠ []) →
    WF (ops.foldl (fun t p => t.insert p.1 p.2.1 p.2.2) t0) ∧
    ∀ u : Word, u ≠ [] →
      (ops.foldl (fun t p => t.insert p.1 p.2.1 p.2.2) t0).find u =
        t0.find u ++ postingsFor ops u := by
  intro ops
  induction ops with
  | nil =>
    intro t0 hwf _
    exact ⟨hwf, fun u hu => by simp [postingsFor]⟩
  | cons p rest ihp =>
    intro t0 hwf hne
    obtain ⟨w, d, f⟩ := p
    have hw : w ≠ [] := hne (w, d, f) (by simp)
    obtain ⟨hwf1, hfind1⟩ := insert_find_spec (sizeOf t0) t0 le_rfl hwf w d f hw
    have hrest : ∀ q ∈ rest, q.1 ≠ [] := fun q hq => hne q (List.mem_cons_of_mem _ hq)
    obtain ⟨hwf2, hfind2⟩ := ihp (t0.insert w d f) hwf1 hrest
    refine ⟨hwf2, ?_⟩
    intro u hu
    rw [List.foldl_cons]
    rw [hfind2 u hu, hfind1 u hu, postingsFor_cons]
    by_cases huw : u = w
    · rw [if_pos huw, if_pos huw, List.append_assoc]
      rfl
    · rw [if_neg huw, if_neg huw]

/-- C1: insert/lookup round-trip.  After any finite sequence of
`insert(term, doc_id, freq)` calls on a fresh trie with non-empty terms, `find(t)`
returns exactly the postings inserted for `t`, in insertion order, and `find(t')`
of a never-inserted non-empty term returns `[]` (then `postingsFor ops t' = []`).
The claim's further hypotheses (terms over `a..z`, distinct `(term, doc_id)` pairs)
are not needed: the statement holds for any non-empty terms and posting multiset. -/
theorem trie_insert_find_round_trip (ops : List (Word × Nat × Nat))
    (hterms : ∀ p ∈ ops, p.1 ≠ []) (t : Word) (ht : t ≠ []) :
    (buildTrie ops).find t = postingsFor ops t := by
  obtain ⟨_, hf⟩ := buildTrie_find_aux ops emptyTrie WF_emptyTrie hterms
  have h0 : emptyTrie.find t = [] := by
    obtain ⟨c, t', rfl⟩ := List.exists_cons_of_ne_nil ht
    rw [show emptyTrie = TrieNode.mk [] false [] [] from rfl, TrieNode.find_cons]
    simp
  have h1 := hf t ht
  rw [h0] at h1
  simpa [buildTrie] using h1

/-- Witness for C1 at a concrete insertion sequence exercising split, descend and
append-to-existing-term cases. -/
theorem trie_insert_find_round_trip_witness :
    (buildTrie [(['c', 'a', 'r'], 1, 1), (['c', 'a', 'r', 't'], 2, 3),
        (['c', 'a', 'r'], 2, 5)]).find ['c', 'a', 'r'] = [(1, 1), (2, 5)] :=
  (trie_insert_find_round_trip
    [(['c', 'a', 'r'], 1, 1), (['c', 'a', 'r', 't'], 2, 3), (['c', 'a', 'r'], 2, 5)]
    (by decide) ['c', 'a', 'r'] (by decide)).trans (by decide)

theorem foldl_insert_is_terminal (ops : List (Word × Nat × Nat)) :
    ∀ t0 : TrieNode,
      (ops.foldl (fun t p => t.insert p.1 p.2.1 p.2.2) t0).is_terminal = t0.is_terminal := by
  induction ops with
  | nil => intro t0; rfl
  | cons p rest ihp =>
    intro t0
    rw [List.foldl_cons, ihp, TrieNode.insert_is_terminal]

/-- C10: `insert` with the empty string returns without touching the trie (the
`while remaining_word:` loop body never runs), and `find("")` on any trie built
from a fresh root returns `[]` because the root never becomes terminal — even
inserting the empty string cannot set it. -/
theorem insert_empty_word_noop :
    (∀ (t : TrieNode) (d f : Nat), t.insert [] d f = t) ∧
    (∀ ops : List (Word × Nat × Nat), (buildTrie ops).find [] = []) := by
  constructor
  · intro t d f
    exact TrieNode.insert_nil t d f
  · intro ops
    have hterm : (buildTrie ops).is_terminal = false := by
      rw [buildTrie, foldl_insert_is_terminal]
      rfl
    rw [TrieNode.find_nil, hterm]
    simp

/-- The operator precedence table `OP_PRECEDENCE` (src/RI.py lines 9-14), as an
association list from token to precedence; tokens are embedded as `List Char`. -/
def OP_PRECEDENCE : List (Word × Nat) :=
  [(['O', 'R'], 1), (['A', 'N', 'D'], 2), (['('], 0), ([')'], 0)]

/-- The `AND` operator token. -/
def AND_TOKEN : Word := ['A', 'N', 'D']

/-- The `OR` operator token. -/
def OR_TOKEN : Word := ['O', 'R']

/-- Dictionary lookup in a token-keyed table (`token in OP_PRECEDENCE`,
`OP_PRECEDENCE[token]`, `.get(token, 0)`). -/
def precLookup : List (Word × Nat) → Word → Option Nat
  | [], _ => none
  | p :: rest, t => if p.1 == t then some p.2 else precLookup rest t

/-- `token in OP_PRECEDENCE`. -/
def isOpToken (t : Word) : Bool := (precLookup OP_PRECEDENCE t).isSome

/-- `OP_PRECEDENCE.get(token, 0)` — default 0, as in src/RI.py line 88. -/
def precOf (t : Word) : Nat := (precLookup OP_PRECEDENCE t).getD 0

/-- `query.replace('(', ' ( ').replace(')', ' ) ')` (src/RI.py line 53).  The two
sequential replacements never create new parentheses, so they fuse into one pass. -/
def expand_parens : List Char → List Char
  | [] => []
  | c :: rest =>
    if c = '(' then ' ' :: '(' :: ' ' :: expand_parens rest
    else if c = ')' then ' ' :: ')' :: ' ' :: expand_parens rest
    else c :: expand_parens rest

/-- Helper of `split_ws`: accumulates the current token reversed. -/
def split_ws_aux : List Char → List Char → List (List Char)
  | cur, [] => if cur.isEmpty then [] else [cur.reverse]
  | cur, c :: rest =>
    if c.isWhitespace then
      (if cur.isEmpty then split_ws_aux [] rest else cur.reverse :: split_ws_aux [] rest)
    else split_ws_aux (c :: cur) rest

/-- Python `str.split()` with no argument (src/RI.py line 54): split on runs of
whitespace, never yielding empty tokens. -/
def split_ws (s : List Char) : List (List Char) := split_ws_aux [] s

/-- `InformationRetriever._tokenize_query` (src/RI.py lines 50-65).  The
`if token.strip():` test is always true for tokens of `split()`, so the loop is a
map: operators and parentheses pass unchanged, everything else is lowercased. -/
def tokenize_query (query : List Char) : List Word :=
  (split_ws (expand_parens query)).map
    (fun token => if isOpToken token then token else token.map Char.toLower)

/-- One iteration of the shunting-yard loop of `_to_rpn` (src/RI.py lines 72-90) on
the state `(output, operator_stack)`; the stack's top is the list head.  The two
`while` pop loops become `takeWhile`/`dropWhile` on the stack; after the `)` pop
loop the top is discarded only when it is `(`, exactly as lines 83-84 do. -/
def rpnStep (acc : List Word × List Word) (token : Word) : List Word × List Word :=
  if ¬ isOpToken token then (acc.1 ++ [token], acc.2)
  else if token = ['('] then (acc.1, token :: acc.2)
  else if token = [')'] then
    let popped := acc.2.takeWhile (fun t => t != ['('])
    let rest := acc.2.dropWhile (fun t => t != ['('])
    match rest with
    | x :: xs => if x = ['('] then (acc.1 ++ popped, xs) else (acc.1 ++ popped, rest)
    | [] => (acc.1 ++ popped, [])
  else
    let popped := acc.2.takeWhile (fun t => (t != ['(']) && decide (precOf token ≤ precOf t))
    (acc.1 ++ popped,
      token :: acc.2.dropWhile (fun t => (t != ['(']) && decide (precOf token ≤ precOf t)))

/-- `_to_rpn` (src/RI.py lines 67-96): fold the loop over the tokens, then drain
the remaining operator stack into the output, top first (lines 93-94). -/
def to_rpn (tokens : List Word) : List Word :=
  let acc := tokens.foldl rpnStep ([], [])
  acc.1 ++ acc.2

/-- The loop of `_evaluate_rpn` (src/RI.py lines 102-122) over the operand stack
of doc-id sets (top = head).  A term token pushes the set of doc ids of its
posting list; `AND`/`OR` raise `ValueError` (modelled `Except.error ()`) on fewer
than two operands; a `(` or `)` token matches no branch and is skipped. -/
def eval_rpn_loop (trie : TrieNode) : List Word → List (Finset Nat) →
    Except Unit (List (Finset Nat))
  | [], stack => .ok stack
  | token :: rest, stack =>
    if ¬ isOpToken token then
      eval_rpn_loop trie rest (((trie.find token).map Prod.fst).toFinset :: stack)
    else if token = AND_TOKEN then
      match stack with
      | s2 :: s1 :: tl => eval_rpn_loop trie rest ((s1 ∩ s2) :: tl)
      | _ => .error ()
    else if token = OR_TOKEN then
      match stack with
      | s2 :: s1 :: tl => eval_rpn_loop trie rest ((s1 ∪ s2) :: tl)
      | _ => .error ()
    else eval_rpn_loop trie rest stack

/-- `_evaluate_rpn` (src/RI.py lines 98-127): run the loop on an empty stack; the
final stack must hold exactly one set (lines 124-125), which is popped. -/
def evaluate_rpn (trie : TrieNode) (tokens : List Word) : Except Unit (Finset Nat) :=
  match eval_rpn_loop trie tokens [] with
  | .error e => .error e
  | .ok stack => if stack.length ≠ 1 then .error () else .ok (stack.headD ∅)

/-- Abstract arity discipline of a postfix stream: the operand-stack depth after
each token; `none` when an `AND`/`OR` is applied with fewer than two operands on
the stack. -/
def rpn_depth : List Word → Nat → Option Nat
  | [], dep => some dep
  | token :: rest, dep =>
    if ¬ isOpToken token then rpn_depth rest (dep + 1)
    else if token = AND_TOKEN ∨ token = OR_TOKEN then
      (if 2 ≤ dep then rpn_depth rest (dep - 1) else none)
    else rpn_depth rest dep

@[simp] theorem isOpToken_AND : isOpToken AND_TOKEN = true := rfl

@[simp] theorem isOpToken_OR : isOpToken OR_TOKEN = true := rfl

@[simp] theorem isOpToken_lparen : isOpToken ['('] = true := rfl

@[simp] theorem isOpToken_rparen : isOpToken [')'] = true := rfl

@[simp] theorem precOf_AND : precOf AND_TOKEN = 2 := rfl

@[simp] theorem precOf_OR : precOf OR_TOKEN = 1 := rfl

@[simp] theorem AND_ne_OR : (AND_TOKEN = OR_TOKEN) = False := by
  simp [AND_TOKEN, OR_TOKEN]

@[simp] theorem OR_ne_AND : (OR_TOKEN = AND_TOKEN) = False := by
  simp [AND_TOKEN, OR_TOKEN]

@[simp] theorem AND_ne_lparen : (AND_TOKEN = ['(']) = False := by
  simp [AND_TOKEN]

@[simp] theorem AND_ne_rparen : (AND_TOKEN = [')']) = False := by
  simp [AND_TOKEN]

@[simp] theorem OR_ne_lparen : (OR_TOKEN = ['(']) = False := by
  simp [OR_TOKEN]

@[simp] theorem OR_ne_rparen : (OR_TOKEN = [')']) = False := by
  simp [OR_TOKEN]

@[simp] theorem AND_bne_lparen : (AND_TOKEN != ['(']) = true := by
  decide

@[simp] theorem OR_bne_lparen : (OR_TOKEN != ['(']) = true := by
  decide

theorem eval_rpn_loop_depth (trie : TrieNode) :
    ∀ (tokens : List Word) (stack : List (Finset Nat)),
      (rpn_depth tokens stack.length = none → eval_rpn_loop trie tokens stack = .error ()) ∧
      (∀ dd, rpn_depth tokens stack.length = some dd →
        ∃ st, eval_rpn_loop trie tokens stack = .ok st ∧ st.length = dd) := by
  intro tokens
  induction tokens with
  | nil =>
    intro stack
    constructor
    · intro h
      simp [rpn_depth] at h
    · intro dd h
      simp only [rpn_depth, Option.some.injEq] at h
      exact ⟨stack, rfl, h⟩
  | cons token rest ihr =>
    intro stack
    cases hop : isOpToken token with
    | false =>
      have h1 := (ihr ((((trie.find token).map Prod.fst).toFinset) :: stack)).1
      have h2 := (ihr ((((trie.find token).map Prod.fst).toFinset) :: stack)).2
      simp only [List.length_cons] at h1 h2
      constructor
      · intro h
        simp only [rpn_depth, hop] at h
        simp only [eval_rpn_loop, hop]
        simp only [Bool.false_eq_true, not_false_eq_true, if_pos] at h ⊢
        exact h1 h
      · intro dd h
        simp only [rpn_depth, hop] at h
        simp only [eval_rpn_loop, hop]
        simp only [Bool.false_eq_true, not_false_eq_true, if_pos] at h ⊢
        exact h2 dd h
    | true =>
      by_cases hand : token = AND_TOKEN
      · subst hand
        cases stack with
        | nil =>
          constructor
          · intro _
            simp [eval_rpn_loop]
          · intro dd h
            simp [rpn_depth] at h
        | cons s2 stl =>
          cases stl with
          | nil =>
            constructor
            · intro _
              simp [eval_rpn_loop]
            · intro dd h
              simp [rpn_depth] at h
          | cons s1 tl =>
            have h1 := (ihr ((s1 ∩ s2) :: tl)).1
            have h2 := (ihr ((s1 ∩ s2) :: tl)).2
            simp only [List.length_cons] at h1 h2
            constructor
            · intro h
              simp only [rpn_depth, List.length_cons] at h
              simp only [eval_rpn_loop]
              simp at h ⊢
              exact h1 (by simpa using h)
            · intro dd h
              simp only [rpn_depth, List.length_cons] at h
              simp only [eval_rpn_loop]
              simp at h ⊢
              exact h2 dd (by simpa using h)
      · by_cases hor : token = OR_TOKEN
        · subst hor
          cases stack with
          | nil =>
            constructor
            · intro _
              simp [eval_rpn_loop]
            · intro dd h
              simp [rpn_depth] at h
          | cons s2 stl =>
            cases stl with
            | nil =>
              constructor
              · intro _
                simp [eval_rpn_loop]
              · intro dd h
                simp [rpn_depth] at h
            | cons s1 tl =>
              have h1 := (ihr ((s1 ∪ s2) :: tl)).1
              have h2 := (ihr ((s1 ∪ s2) :: tl)).2
              simp only [List.length_cons] at h1 h2
              constructor
              · intro h
                simp only [rpn_depth, List.length_cons] at h
                simp only [eval_rpn_loop]
                simp at h ⊢
                exact h1 (by simpa using h)
              · intro dd h
                simp only [rpn_depth, List.length_cons] at h
                simp only [eval_rpn_loop]
                simp at h ⊢
                exact h2 dd (by simpa using h)
        · have h1 := (ihr stack).1
          have h2 := (ihr stack).2
          constructor
          · intro h
            simp only [rpn_depth, hop, hand, hor] at h
            simp only [eval_rpn_loop, hop, hand, hor]
            simp at h ⊢
            exact h1 h
          · intro dd h
            simp only [rpn_depth, hop, hand, hor] at h
            simp only [eval_rpn_loop, hop, hand, hor]
            simp at h ⊢
            exact h2 dd h

theorem evaluate_rpn_error_iff (trie : TrieNode) (tokens : List Word) :
    evaluate_rpn trie tokens = .error () ↔ rpn_depth tokens 0 ≠ some 1 := by
  obtain ⟨he, hs⟩ := eval_rpn_loop_depth trie tokens []
  simp only [List.length_nil] at he hs
  cases hd : rpn_depth tokens 0 with
  | none =>
    have herr := he hd
    simp [evaluate_rpn, herr]
  | some dd =>
    obtain ⟨st, hst, hlen⟩ := hs dd hd
    by_cases hdd : dd = 1
    · subst hdd
      simp [evaluate_rpn, hst, hlen]
    · have hlen' : st.length ≠ 1 := by rw [hlen]; exact hdd
      simp [evaluate_rpn, hst, hlen', hdd]

/-- A per-term statistics entry of `global_stats` (written by
`Indexer._calculate_and_save_stats`, read by `InformationRetriever`):
`{mu, sigma, df}`, floats embedded as exact rationals. -/
structure StatsEntry where
  mu : Rat
  sigma : Rat
  df : Nat

/-- `self.global_stats.get(term)` (src/RI.py line 135): the statistics map as an
association list keyed by term. -/
def getStats : List (Word × StatsEntry) → Word → Option StatsEntry
  | [], _ => none
  | p :: rest, t => if p.1 == t then some p.2 else getStats rest t

/-- `InformationRetriever._calculate_z_score` (src/RI.py lines 133-147), over
exact arithmetic: `tf` is an int compared and subtracted against the float `mu`;
both are embedded in `Rat`.  A term absent from the statistics map scores 0 (the
`if not stats:` test; the entries of our model are well-formed records, and an
absent key is the only falsy value `dict.get` returns here). -/
def calculate_z_score (gs : List (Word × StatsEntry)) (tf : Rat) (term : Word) : Rat :=
  match getStats gs term with
  | none => 0
  | some st =>
    if st.sigma ≤ 0 then (if st.mu < tf then 1 else 0)
    else (tf - st.mu) / st.sigma

/-- `next((t for d, t in index_list if d == doc_id), 0)` (src/RI.py line 162):
the tf of the first posting of the term whose doc id matches, 0 when none does. -/
def doc_tf (trie : TrieNode) (term : Word) (doc_id : Nat) : Nat :=
  match (trie.find term).find? (fun q => q.1 == doc_id) with
  | some q => q.2
  | none => 0

/-- The per-document accumulator loop of `_rank_results` (src/RI.py lines
153-168): `(total_z_score, term_count)` after folding over the query terms. -/
def doc_score (trie : TrieNode) (gs : List (Word × StatsEntry))
    (query_terms : List Word) (doc_id : Nat) : Rat × Nat :=
  query_terms.foldl
    (fun acc term =>
      if 0 < doc_tf trie term doc_id then
        (acc.1 + calculate_z_score gs (doc_tf trie term doc_id : Rat) term, acc.2 + 1)
      else acc)
    (0, 0)

/-- The `ranked_docs` list of `(relevance, doc_id)` pairs built by `_rank_results`
(src/RI.py lines 151-173): Python's append-under-a-guard loop is a `filterMap`;
a document with `term_count = 0` is dropped, otherwise its relevance is the mean
`total_z_score / term_count`. -/
def ranked_docs (trie : TrieNode) (gs : List (Word × StatsEntry))
    (doc_ids : List Nat) (query_terms : List Word) : List (Rat × Nat) :=
  doc_ids.filterMap (fun d =>
    let p := doc_score trie gs query_terms d
    if 0 < p.2 then some (p.1 / (p.2 : Rat), d) else none)

/-- Insertion step of a stable sort descending by relevance: the new pair goes
after every pair whose relevance is ≥ its own — where Python's stable
`list.sort(key=lambda x: x[0], reverse=True)` places it. -/
def insert_by_relevance (p : Rat × Nat) : List (Rat × Nat) → List (Rat × Nat)
  | [] => [p]
  | q :: rest => if q.1 < p.1 then p :: q :: rest else q :: insert_by_relevance p rest

/-- `ranked_docs.sort(key=lambda x: x[0], reverse=True)` (src/RI.py line 176),
realised as a stable insertion sort (it computes the same list as any stable
descending sort, hence the same as CPython's timsort). -/
def sort_by_relevance (l : List (Rat × Nat)) : List (Rat × Nat) :=
  l.foldl (fun acc p => insert_by_relevance p acc) []

/-- `_rank_results` (src/RI.py lines 149-179): build, sort descending by
relevance, return the doc ids only. -/
def rank_results (trie : TrieNode) (gs : List (Word × StatsEntry))
    (doc_ids : List Nat) (query_terms : List Word) : List Nat :=
  (sort_by_relevance (ranked_docs trie gs doc_ids query_terms)).map Prod.snd

/-- `InformationRetriever.search` (src/RI.py lines 185-208).  `is_ready` is the
readiness flag set by `__init__`; the set comprehension `query_terms` is embedded
as the deduplicated token sublist in first-occurrence order, and the doc-id set
handed to `_rank_results` is iterated in ascending order (Python iterates a set
in an unspecified order).  The `except ValueError` handler returns `[]`. -/
def search (is_ready : Bool) (trie : TrieNode) (gs : List (Word × StatsEntry))
    (query : List Char) : List Nat :=
  if ¬ is_ready then []
  else
    let tokens := tokenize_query query
    let query_terms := (tokens.filter (fun t => ! isOpToken t)).dedup
    match evaluate_rpn trie (to_rpn tokens) with
    | .error _ => []
    | .ok docs =>
      if docs = ∅ then []
      else rank_results trie gs (docs.sort (· ≤ ·)) query_terms

/-- C3: a query whose postfix stream makes the evaluator run out of operands
(fewer than two sets on the stack at an `AND`/`OR`) or finish with operand-stack
depth ≠ 1 makes `_evaluate_rpn` fail with the malformed-query `ValueError`
(`Except.error`), and exactly then; `search` catches the error and returns `[]`
— no exception reaches the caller (the embedding of the evaluator is total and
`search` maps its only error to `[]`). -/
theorem evaluate_rpn_malformed_spec (trie : TrieNode) (gs : List (Word × StatsEntry))
    (is_ready : Bool) (query : List Char) :
    (evaluate_rpn trie (to_rpn (tokenize_query query)) = .error () ↔
      rpn_depth (to_rpn (tokenize_query query)) 0 ≠ some 1) ∧
    (evaluate_rpn trie (to_rpn (tokenize_query query)) = .error () →
      search is_ready trie gs query = []) := by
  refine ⟨evaluate_rpn_error_iff trie _, ?_⟩
  intro herr
  cases is_ready with
  | false => simp [search]
  | true => simp [search, herr]

/-- Witness for C3 at the query `"a AND"`: its postfix stream `[a, AND]`
underflows, and `search` returns `[]`. -/
theorem evaluate_rpn_malformed_spec_witness :
    search true emptyTrie [] ['a', ' ', 'A', 'N', 'D'] = [] :=
  (evaluate_rpn_malformed_spec emptyTrie [] true ['a', ' ', 'A', 'N', 'D']).2 (by rfl)

/-- C4 counterexample: the token list `['(', 'a']` contains an unmatched opening
parenthesis, yet `_to_rpn` returns the non-empty stream `['a', '(']`: the final
drain loop (src/RI.py lines 93-94) flushes the leftover `(` into the output, so
the claim that every unmatched-parenthesis input yields `[]` is false. -/
theorem to_rpn_unmatched_counterexample :
    to_rpn [['('], ['a']] = [['a'], ['(']] ∧ to_rpn [['('], ['a']] ≠ [] := by
  refine ⟨rfl, ?_⟩
  decide

/-- C4 amended: `_to_rpn` maps the empty token list to the empty stream, and
returns without raising on unmatched parentheses, but the result may be
non-empty: a leftover `(` is drained into the output (`['(', a] ↦ [a, '(']`),
while an unmatched `)` merely empties the operator stack (`[')', a] ↦ [a]`,
`[a, ')'] ↦ [a]`). -/
theorem to_rpn_unmatched_amended (a : Word) (ha : isOpToken a = false) :
    to_rpn [] = [] ∧ to_rpn [['('], a] = [a, ['(']] ∧
    to_rpn [[')'], a] = [a] ∧ to_rpn [a, [')']] = [a] := by
  refine ⟨rfl, ?_, ?_, ?_⟩ <;> simp [to_rpn, rpnStep, ha]

/-- Witness for the amended C4 at the term token `'x'`. -/
theorem to_rpn_unmatched_amended_witness :
    to_rpn [] = [] ∧ to_rpn [['('], ['x']] = [['x'], ['(']] ∧
    to_rpn [[')'], ['x']] = [['x']] ∧ to_rpn [['x'], [')']] = [['x']] :=
  to_rpn_unmatched_amended ['x'] rfl

/-- C9: by precedence, `a AND b OR c` and `(a AND b) OR c` produce identical
postfix streams (both `[a, b, AND, c, OR]`) for all term tokens `a`, `b`, `c`. -/
theorem to_rpn_precedence_equiv (a b c : Word) (ha : isOpToken a = false)
    (hb : isOpToken b = false) (hc : isOpToken c = false) :
    to_rpn [a, AND_TOKEN, b, OR_TOKEN, c] =
      to_rpn [['('], a, AND_TOKEN, b, [')'], OR_TOKEN, c] ∧
    to_rpn [a, AND_TOKEN, b, OR_TOKEN, c] = [a, b, AND_TOKEN, c, OR_TOKEN] := by
  constructor <;> simp [to_rpn, rpnStep, ha, hb, hc]

/-- Witness for C9 at the term tokens `'x'`, `'y'`, `'z'`. -/
theorem to_rpn_precedence_equiv_witness :
    to_rpn [['x'], AND_TOKEN, ['y'], OR_TOKEN, ['z']] =
      to_rpn [['('], ['x'], AND_TOKEN, ['y'], [')'], OR_TOKEN, ['z']] ∧
    to_rpn [['x'], AND_TOKEN, ['y'], OR_TOKEN, ['z']] =
      [['x'], ['y'], AND_TOKEN, ['z'], OR_TOKEN] :=
  to_rpn_precedence_equiv ['x'] ['y'] ['z'] rfl rfl rfl

/-- C5: `_calculate_z_score` returns 0 for a term with no statistics entry; for
an entry with `sigma ≤ 0` it returns 1 when `tf > mu` and 0 otherwise; and for
`sigma > 0` it returns `(tf − mu) / sigma`. -/
theorem calculate_z_score_spec (gs : List (Word × StatsEntry)) (tf : Rat) (term : Word) :
    (getStats gs term = none → calculate_z_score gs tf term = 0) ∧
    (∀ st, getStats gs term = some st → st.sigma ≤ 0 →
      calculate_z_score gs tf term = (if st.mu < tf then 1 else 0)) ∧
    (∀ st, getStats gs term = some st → 0 < st.sigma →
      calculate_z_score gs tf term = (tf - st.mu) / st.sigma) := by
  refine ⟨?_, ?_, ?_⟩
  · intro h
    simp [calculate_z_score, h]
  · intro st h hs
    simp [calculate_z_score, h, hs]
  · intro st h hs
    have hns : ¬ st.sigma ≤ 0 := not_le.mpr hs
    simp [calculate_z_score, h, hns]

/-- Witness for C5: the three branches evaluated at concrete statistics. -/
theorem calculate_z_score_spec_witness :
    calculate_z_score [] 3 ['a'] = 0 ∧
    calculate_z_score [(['a'], ⟨(3 : Rat)/2, 0, 2⟩)] 2 ['a'] = 1 ∧
    calculate_z_score [(['a'], ⟨(3 : Rat)/2, (1 : Rat)/2, 2⟩)] 2 ['a'] =
      ((2 : Rat) - 3/2) / (1/2) :=
  ⟨(calculate_z_score_spec [] 3 ['a']).1 rfl,
   ((calculate_z_score_spec [(['a'], ⟨(3 : Rat)/2, 0, 2⟩)] 2 ['a']).2.1 _ rfl
     (by norm_num)).trans (by norm_num),
   (calculate_z_score_spec [(['a'], ⟨(3 : Rat)/2, (1 : Rat)/2, 2⟩)] 2 ['a']).2.2 _ rfl
     (by norm_num)⟩

/-- The query terms a document actually contains (positive tf), in query order. -/
def contained_terms (trie : TrieNode) (query_terms : List Word) (d : Nat) : List Word :=
  query_terms.filter (fun t => decide (0 < doc_tf trie t d))

theorem doc_score_foldl_aux (trie : TrieNode) (gs : List (Word × StatsEntry)) (d : Nat) :
    ∀ (terms : List Word) (init : Rat × Nat),
      terms.foldl
        (fun acc term =>
          if 0 < doc_tf trie term d then
            (acc.1 + calculate_z_score gs (doc_tf trie term d : Rat) term, acc.2 + 1)
          else acc)
        init =
      (init.1 + ((contained_terms trie terms d).map
          (fun t => calculate_z_score gs (doc_tf trie t d : Rat) t)).sum,
        init.2 + (contained_terms trie terms d).length) := by
  intro terms
  induction terms with
  | nil =>
    intro init
    simp [contained_terms]
  | cons t rest ihr =>
    intro init
    rw [List.foldl_cons, ihr]
    by_cases h : 0 < doc_tf trie t d
    · have hfil : contained_terms trie (t :: rest) d = t :: contained_terms trie rest d := by
        simp [contained_terms, List.filter_cons, h]
      rw [hfil]
      simp only [List.map_cons, List.sum_cons, List.length_cons]
      rw [if_pos h, Prod.mk.injEq]
      constructor
      · ring
      · omega
    · have hfil : contained_terms trie (t :: rest) d = contained_terms trie rest d := by
        simp [contained_terms, List.filter_cons, h]
      rw [hfil, if_neg h]

theorem doc_score_eq (trie : TrieNode) (gs : List (Word × StatsEntry))
    (query_terms : List Word) (d : Nat) :
    doc_score trie gs query_terms d =
      (((contained_terms trie query_terms d).map
          (fun t => calculate_z_score gs (doc_tf trie t d : Rat) t)).sum,
        (contained_terms trie query_terms d).length) := by
  rw [doc_score, doc_score_foldl_aux]
  simp

theorem mem_insert_by_relevance (p q : Rat × Nat) (l : List (Rat × Nat)) :
    q ∈ insert_by_relevance p l ↔ q = p ∨ q ∈ l := by
  induction l with
  | nil => simp [insert_by_relevance]
  | cons x rest ih =>
    rw [insert_by_relevance]
    by_cases h : x.1 < p.1
    · rw [if_pos h]
      simp [List.mem_cons]
    · rw [if_neg h]
      simp [List.mem_cons, ih]
      tauto

theorem mem_sort_by_relevance_aux :
    ∀ (l acc : List (Rat × Nat)) (q : Rat × Nat),
      q ∈ l.foldl (fun acc p => insert_by_relevance p acc) acc ↔ q ∈ acc ∨ q ∈ l := by
  intro l
  induction l with
  | nil =>
    intro acc q
    simp
  | cons x rest ih =>
    intro acc q
    rw [List.foldl_cons, ih, mem_insert_by_relevance]
    simp [List.mem_cons]
    tauto

theorem mem_sort_by_relevance (l : List (Rat × Nat)) (q : Rat × Nat) :
    q ∈ sort_by_relevance l ↔ q ∈ l := by
  rw [sort_by_relevance, mem_sort_by_relevance_aux]
  simp

theorem sorted_insert_by_relevance (p : Rat × Nat) (l : List (Rat × Nat))
    (h : l.Pairwise (fun a b => b.1 ≤ a.1)) :
    (insert_by_relevance p l).Pairwise (fun a b => b.1 ≤ a.1) := by
  induction l with
  | nil => simp [insert_by_relevance]
  | cons x rest ih =>
    rw [List.pairwise_cons] at h
    obtain ⟨hx, hrest⟩ := h
    rw [insert_by_relevance]
    by_cases hc : x.1 < p.1
    · rw [if_pos hc, List.pairwise_cons]
      constructor
      · intro q hq
        rcases List.mem_cons.mp hq with rfl | hq2
        · exact le_of_lt hc
        · exact le_trans (hx q hq2) (le_of_lt hc)
      · exact List.pairwise_cons.mpr ⟨hx, hrest⟩
    · rw [if_neg hc, List.pairwise_cons]
      constructor
      · intro q hq
        rcases (mem_insert_by_relevance p q rest).mp hq with rfl | hq2
        · exact not_lt.mp hc
        · exact hx q hq2
      · exact ih hrest

theorem sorted_sort_by_relevance_aux :
    ∀ (l acc : List (Rat × Nat)), acc.Pairwise (fun a b => b.1 ≤ a.1) →
      (l.foldl (fun acc p => insert_by_relevance p acc) acc).Pairwise
        (fun a b => b.1 ≤ a.1) := by
  intro l
  induction l with
  | nil =>
    intro acc hacc
    simpa using hacc
  | cons x rest ih =>
    intro acc hacc
    rw [List.foldl_cons]
    exact ih _ (sorted_insert_by_relevance x acc hacc)

theorem sorted_sort_by_relevance (l : List (Rat × Nat)) :
    (sort_by_relevance l).Pairwise (fun a b => b.1 ≤ a.1) :=
  sorted_sort_by_relevance_aux l [] (by simp)

/-- C6: every document id returned by `_rank_results` has a positive tf for at
least one query term (documents containing none are dropped); each ranked pair's
relevance is the arithmetic mean of the z-scores over exactly the query terms the
document contains; and the ranked list is ordered by non-increasing relevance. -/
theorem rank_results_spec (trie : TrieNode) (gs : List (Word × StatsEntry))
    (doc_ids : List Nat) (query_terms : List Word) :
    (∀ d ∈ rank_results trie gs doc_ids query_terms,
      ∃ t ∈ query_terms, 0 < doc_tf trie t d) ∧
    (∀ p ∈ sort_by_relevance (ranked_docs trie gs doc_ids query_terms),
      p.1 = ((contained_terms trie query_terms p.2).map
          (fun t => calculate_z_score gs (doc_tf trie t p.2 : Rat) t)).sum /
        ((contained_terms trie query_terms p.2).length : Rat)) ∧
    (sort_by_relevance (ranked_docs trie gs doc_ids query_terms)).Pairwise
      (fun a b => b.1 ≤ a.1) := by
  refine ⟨?_, ?_, sorted_sort_by_relevance _⟩
  · intro d hd
    rw [rank_results] at hd
    obtain ⟨p, hp, rfl⟩ := List.mem_map.mp hd
    rw [mem_sort_by_relevance, ranked_docs] at hp
    obtain ⟨a, ha, hfa⟩ := List.mem_filterMap.mp hp
    dsimp only at hfa
    by_cases hcnt : 0 < (doc_score trie gs query_terms a).2
    · rw [if_pos hcnt] at hfa
      obtain rfl := Option.some.inj hfa
      rw [doc_score_eq] at hcnt
      simp only at hcnt
      have hne : contained_terms trie query_terms a ≠ [] := by
        intro hnil
        rw [hnil] at hcnt
        simp at hcnt
      obtain ⟨t, ht⟩ := List.exists_mem_of_ne_nil _ hne
      rw [contained_terms, List.mem_filter] at ht
      exact ⟨t, ht.1, of_decide_eq_true ht.2⟩
    · rw [if_neg hcnt] at hfa
      cases hfa
  · intro p hp
    rw [mem_sort_by_relevance, ranked_docs] at hp
    obtain ⟨a, ha, hfa⟩ := List.mem_filterMap.mp hp
    dsimp only at hfa
    by_cases hcnt : 0 < (doc_score trie gs query_terms a).2
    · rw [if_pos hcnt] at hfa
      obtain rfl := Option.some.inj hfa
      simp [doc_score_eq]
    · rw [if_neg hcnt] at hfa
      cases hfa

/-- Witness for C6: a one-document, one-term instance where the ranked list is
`[1]` and the term is contained. -/
theorem rank_results_spec_witness :
    ∃ t ∈ [['a']], 0 < doc_tf (emptyTrie.insert ['a'] 1 2) t 1 :=
  (rank_results_spec (emptyTrie.insert ['a'] 1 2) [] [1] [['a']]).1 1
    (by simp [rank_results, ranked_docs, doc_score, doc_tf, TrieNode.find,
      TrieNode.insert, emptyTrie, getChild, setChild, find_mismatch_point,
      sort_by_relevance, insert_by_relevance, calculate_z_score, getStats])

/-- The raw per-term accumulation of the indexing loop (src/indexer.py lines
110-115): folding the per-document term frequencies of one term into
`(df, sum_tf, sum_tf2)` — `df += 1`, `sum_tf += tf`, `sum_tf2 += tf ** 2`.
Frequencies are ints; the sums are embedded in `Rat` since the finalization
divides them. -/
def accumulate_raw (tfs : List Nat) : Nat × Rat × Rat :=
  tfs.foldl
    (fun (acc : Nat × Rat × Rat) (tf : Nat) =>
      (acc.1 + 1, acc.2.1 + (tf : Rat), acc.2.2 + (tf : Rat) ^ 2))
    (0, 0, 0)

/-- `mu = sum_tf / df if df > 0 else 0` (src/indexer.py line 142). -/
def finalize_mu (sum_tf : Rat) (df : Nat) : Rat :=
  if 0 < df then sum_tf / (df : Rat) else 0

/-- `variance = (sum_tf2 / df) - mu ** 2 if df > 0 else 0` (src/indexer.py
line 146). -/
def finalize_variance (sum_tf sum_tf2 : Rat) (df : Nat) : Rat :=
  if 0 < df then sum_tf2 / (df : Rat) - (finalize_mu sum_tf df) ^ 2 else 0

/-- `sigma = math.sqrt(variance) if variance >= 0 else 0` (src/indexer.py line
148), modelled by the exact square of the returned sigma: `math.sqrt` leaves the
rationals, and `sigma` is determined as the non-negative square root of this
value, so the branch keeps the variance when it is ≥ 0 and yields 0 otherwise. -/
def finalize_sigma_sq (sum_tf sum_tf2 : Rat) (df : Nat) : Rat :=
  if 0 ≤ finalize_variance sum_tf sum_tf2 df then finalize_variance sum_tf sum_tf2 df
  else 0

theorem accumulate_raw_aux :
    ∀ (tfs : List Nat) (init : Nat × Rat × Rat),
      tfs.foldl
        (fun (acc : Nat × Rat × Rat) (tf : Nat) =>
          (acc.1 + 1, acc.2.1 + (tf : Rat), acc.2.2 + (tf : Rat) ^ 2))
        init =
      (init.1 + tfs.length, init.2.1 + (tfs.map (fun (x : Nat) => (x : Rat))).sum,
        init.2.2 + (tfs.map (fun (x : Nat) => (x : Rat) ^ 2)).sum) := by
  intro tfs
  induction tfs with
  | nil =>
    intro init
    simp
  | cons tf rest ih =>
    intro init
    rw [List.foldl_cons, ih]
    simp only [List.length_cons, List.map_cons, List.sum_cons]
    rw [Prod.mk.injEq, Prod.mk.injEq]
    refine ⟨by omega, by ring, by ring⟩

/-- C7: for a term seen in `df ≥ 1` documents with per-document frequencies
`tfs`, the indexer's accumulator collects `(df, Σtf, Σtf²)` and finalization
yields `mu = Σtf/df` and a sigma whose square is `max 0 (Σtf²/df − mu²)` — the
variance clamped to zero before the square root (over exact arithmetic). -/
theorem stats_finalization_spec (tfs : List Nat) (hne : tfs ≠ []) :
    accumulate_raw tfs =
      (tfs.length, (tfs.map (fun (x : Nat) => (x : Rat))).sum,
        (tfs.map (fun (x : Nat) => (x : Rat) ^ 2)).sum) ∧
    finalize_mu ((tfs.map (fun (x : Nat) => (x : Rat))).sum) tfs.length =
      ((tfs.map (fun (x : Nat) => (x : Rat))).sum) / (tfs.length : Rat) ∧
    finalize_sigma_sq ((tfs.map (fun (x : Nat) => (x : Rat))).sum)
        ((tfs.map (fun (x : Nat) => (x : Rat) ^ 2)).sum) tfs.length =
      max 0 ((tfs.map (fun (x : Nat) => (x : Rat) ^ 2)).sum / (tfs.length : Rat) -
        (((tfs.map (fun (x : Nat) => (x : Rat))).sum) / (tfs.length : Rat)) ^ 2) := by
  have hpos : 0 < tfs.length := List.length_pos.mpr hne
  refine ⟨?_, ?_, ?_⟩
  · rw [accumulate_raw, accumulate_raw_aux]
    simp
  · rw [finalize_mu, if_pos hpos]
  · rw [finalize_sigma_sq, finalize_variance, if_pos hpos, finalize_mu, if_pos hpos]
    rcases le_total 0 ((tfs.map (fun (x : Nat) => (x : Rat) ^ 2)).sum / (tfs.length : Rat) -
        (((tfs.map (fun (x : Nat) => (x : Rat))).sum) / (tfs.length : Rat)) ^ 2) with hv | hv
    · rw [if_pos hv, max_eq_right hv]
    · by_cases hv2 : 0 ≤ (tfs.map (fun (x : Nat) => (x : Rat) ^ 2)).sum / (tfs.length : Rat) -
          (((tfs.map (fun (x : Nat) => (x : Rat))).sum) / (tfs.length : Rat)) ^ 2
      · rw [if_pos hv2, max_eq_right hv2]
      · rw [if_neg hv2, max_eq_left (le_of_not_le hv2)]

/-- Witness for C7 at frequencies `[1, 2]`: `df = 2`, `Σtf = 3`, `Σtf² = 5`,
`mu = 3/2`, `sigma² = 1/4`. -/
theorem stats_finalization_spec_witness :
    accumulate_raw [1, 2] = (2, 3, 5) ∧ finalize_mu 3 2 = 3 / 2 ∧
    finalize_sigma_sq 3 5 2 = 1 / 4 := by
  have h := stats_finalization_spec [1, 2] (by decide)
  refine ⟨h.1.trans (by norm_num), ?_, ?_⟩
  · have h2 := h.2.1
    norm_num at h2 ⊢
    exact h2
  · have h3 := h.2.2
    norm_num at h3 ⊢
    exact h3

/-- `str.split(sep)` for a single-character separator: splits into fields,
keeping empty fields (so a line starting with `|` yields an empty first field). -/
def splitOnChar (sep : Char) : List Char → List (List Char)
  | [] => [[]]
  | c :: rest =>
    if c = sep then [] :: splitOnChar sep rest
    else
      match splitOnChar sep rest with
      | g :: gs => (c :: g) :: gs
      | [] => [[c]]

/-- `int(s)` on the canonical decimal strings the serializer writes: all digits,
non-empty.  (Python's `int` also accepts signs and surrounding whitespace; the
index files only ever hold plain decimals.) -/
def parseNat (s : List Char) : Option Nat :=
  if s = [] then none
  else if s.all (fun c => c.isDigit) then
    some (s.foldl (fun acc c => acc * 10 + (c.toNat - '0'.toNat)) 0)
  else none

/-- `doc_id, freq = map(int, item.split(','))` (src/compact_trie.py lines 276 and
305): exactly two comma-separated integers, else the unpacking or `int` raises. -/
def parsePosting (item : List Char) : Option (Nat × Nat) :=
  match splitOnChar ',' item with
  | [a, b] =>
    match parseNat a, parseNat b with
    | some x, some y => some (x, y)
    | _, _ => none
  | _ => none

/-- The posting-list field parser (lines 274-277 and 303-306): empty field means
no postings, otherwise `;`-separated `doc,freq` pairs, any error propagating. -/
def parsePostings (idx : List Char) : Option (List (Nat × Nat)) :=
  if idx = [] then some []
  else (splitOnChar ';' idx).mapM parsePosting

/-- One line of the index file (lines 266-277 / 292-306):
`label|is_terminal|num_children|postings` — `split('|')` must yield exactly four
fields or the destructuring raises; `is_terminal` is the string comparison with
`"1"`; the two numeric fields go through `int`.  Lines are taken already
stripped of their terminator (the `.strip()` of the source). -/
def parseLine (line : List Char) : Option (Word × Bool × Nat × List (Nat × Nat)) :=
  match splitOnChar '|' line with
  | [lbl, t, k, idx] =>
    match parseNat k, parsePostings idx with
    | some kk, some ps => some (lbl, t == ['1'], kk, ps)
    | _, _ => none
  | _ => none

/-- Attach `n` as the child under key `c` of the node reached from `root` by
following the child keys in `path`.  This renders the loader's aliased mutation
`parent_node.children[...] = new_node` functionally: the stack frames of
`load_from_file` identify each pending parent by its key path from the root. -/
def attachAt : TrieNode → List Char → Char → TrieNode → TrieNode
  | .mk l b i ch, [], c, n => .mk l b i (setChild ch c n)
  | .mk l b i ch, p :: ps, c, n =>
    match getChild ch p with
    | none => .mk l b i ch
    | some sub => .mk l b i (setChild ch p (attachAt sub ps c n))

/-- The outcome of `CompactTrie.load_from_file` (src/compact_trie.py lines
244-331): `success root` when it returns `True` with the rebuilt root,
`emptyFile` for the bare `return` on an empty file (value `None`, falsy to every
caller), `failure` when an exception was caught and `False` returned. -/
inductive LoadResult : Type where
  | success (root : TrieNode) : LoadResult
  | emptyFile : LoadResult
  | failure : LoadResult

/-- Did the load report success (return `True`)? -/
def LoadResult.isSuccess : LoadResult → Bool
  | .success _ => true
  | _ => false

/-- The `for line in f:` loop of `load_from_file` (src/compact_trie.py lines
283-321), with the pending-children stack as a list whose head is the Python
list's top (`stack[-1]`).  `if not stack: break` ends the loop with success on
the first line seen with an empty stack; a malformed line or an empty label
(whose `[0]` would raise `IndexError`) aborts with failure via the `except`
clause; otherwise the node is attached under the first character of its label,
the top frame's count is decremented (popping at zero) and a frame for the new
node is pushed when it expects children. -/
def load_loop : TrieNode → List (List Char × Nat) → List (List Char) → LoadResult
  | root, _, [] => .success root
  | root, stack, line :: rest =>
    if stack.isEmpty then .success root
    else
      match parseLine line, stack with
      | some (lbl, term, k, ps), (path, remaining) :: stackRest =>
        match lbl with
        | [] => .failure
        | lc :: _ =>
          let root' := attachAt root path lc (TrieNode.mk lbl term ps [])
          let stack' := if remaining - 1 = 0 then stackRest
                        else (path, remaining - 1) :: stackRest
          let stack'' := if 0 < k then (path ++ [lc], k) :: stack' else stack'
          load_loop root' stack'' rest
      | none, _ => .failure
      | _, [] => .failure

/-- `CompactTrie.load_from_file` (src/compact_trie.py lines 244-331), on the list
of the file's lines (already stripped): an empty file returns early (`None`)
with a fresh root; the first line populates the root and seeds the stack, and
the loop processes the rest. -/
def load_from_file (lines : List (List Char)) : LoadResult :=
  match lines with
  | [] => .emptyFile
  | first :: rest =>
    match parseLine first with
    | none => .failure
    | some (lbl, term, k, ps) =>
      load_loop (TrieNode.mk lbl term ps []) (if 0 < k then [([], k)] else []) rest

/-- C8 counterexample: this three-line file has a well-formed line remaining
after the root's single child closed the pending-children stack, yet the load
reports success — `load_from_file` only `break`s (line 286) and returns `True`
(line 324); trailing input is not a format error. -/
theorem load_trailing_input_counterexample :
    (load_from_file
      [['|', '0', '|', '1', '|'],
       ['a', '|', '1', '|', '0', '|', '1', ',', '1'],
       ['b', '|', '1', '|', '0', '|', '2', ',', '1']]).isSuccess = true := by
  rfl

/-- C8 amended: when the node lines continue after the pending-children stack has
become empty, the reading loop stops at the first such line, every trailing line
is silently ignored — whether well-formed or not — and the load reports success. -/
theorem load_trailing_input_ignored (root : TrieNode) (extra : List (List Char)) :
    load_loop root [] extra = .success root := by
  cases extra with
  | nil => rfl
  | cons l rest => rfl

/-- The method names defined in the body of class `CompactTrie`
(src/compact_trie.py lines 22-331): exactly these `def`s. -/
def compactTrieMethodNames : List String :=
  ["__init__", "_find_mismatch_point", "insert", "find", "pre_order_serialize",
    "save_to_file", "load_from_file"]

/-- `save_to_file` (src/compact_trie.py lines 232-242): the file is opened with
mode `w`, truncating it, and `self.pre_order_serialize_serialize(self.root, f)`
is evaluated.  The class defines no attribute of that name (see
`compactTrieMethodNames`; line 230's recursive call has the same typo), so an
`AttributeError` is raised before anything is written and the `except` clause
catches it; the function returns normally with the file left empty.  Modelled as
the list of lines the call leaves in the file. -/
def save_to_file (_t : TrieNode) : List (List Char) := []

/-- C2 (code bug): the serialize/deserialize round-trip is broken by the
`pre_order_serialize_serialize` typo.  Saving any trie leaves an empty file;
loading the empty file returns `None` (`emptyFile`) with a fresh empty root, so
`find` of the inserted term yields `[]` instead of the original `[(1, 1)]` —
contradicting the claim and the assertions of main.py's own test. -/
theorem save_load_round_trip_broken :
    compactTrieMethodNames.contains "pre_order_serialize_serialize" = false ∧
    save_to_file (emptyTrie.insert ['a'] 1 1) = [] ∧
    load_from_file (save_to_file (emptyTrie.insert ['a'] 1 1)) = .emptyFile ∧
    (emptyTrie.insert ['a'] 1 1).find ['a'] = [(1, 1)] ∧
    emptyTrie.find ['a'] = [] := by
  refine ⟨by decide, rfl, rfl, ?_, ?_⟩
  · simp [TrieNode.insert, TrieNode.find, emptyTrie, getChild, setChild,
      find_mismatch_point]
  · simp [TrieNode.find, emptyTrie]
